import Mathlib

/-!
Verification development for the dependency-graph engine of `tdp-lib`
(`src/tdp/core/dag.py`).  The `Dag` class merges operation declarations from an
ordered mapping of collections, builds a directed graph of
"dependency → dependent" edges over operation names, validates structural
conventions (emitting warnings), and answers ordering queries through a
lexicographic topological sort whose key combines a static per-service
priority with the operation name.

Machine strings are modelled by Lean `String` (Python string comparison and
Lean's `List Char` lexicographic comparison both compare code points).  The
external graph library calls (`networkx`) are embedded by executable
implementations of the documented operations: lexicographic topological sort
(Kahn's algorithm picking the minimal-key ready node), acyclicity as
completeness of that sort, and ancestor/descendant closures by saturation.
Python `re.match` (prefix-match semantics) is embedded with Mathlib's
`RegularExpression` over `Char`.
-/

/-! ### Data model

`Operation` mirrors `tdp.core.operation.Operation` as consumed by `dag.py`:
a name, the list of dependency names, the declaring collection's name and the
`noop` flag. -/

structure Operation where
  name : String
  depends_on : List String
  collection_name : String
  noop : Bool
deriving Repr, DecidableEq

/-- A raw operation declaration, as parsed from one entry of a collection's
dag YAML files (YAML parsing itself is external to `dag.py`). -/
structure RawOperation where
  name : String
  depends_on : List String
  noop : Bool
deriving Repr, DecidableEq

/-- Modelled from the spec: the `Collection` class (`tdp.core.collection`) is
not under src/.  Per the spec's source abstraction, a collection exposes a
name, a sequence of raw operation declarations (`dag_ops`, the concatenation
of its dag YAML files' entries, in file order), and the set of operation
names that have a backing playbook (`operations`, the spec's
`hasArtifact(operationName)` predicate). -/
structure Collection where
  name : String
  dag_ops : List RawOperation
  operations : List String
deriving Repr, DecidableEq

/-- The fatal construction errors of `dag.py`.  The source raises `ValueError`
with distinguishing messages (and a bare `KeyError` on dictionary lookups);
the constructors carry exactly the data interpolated into those messages. -/
inductive DagError where
  /-- `'"{name}" is declared at least twice, first in {first}, second in {second}'`
  (`Dag.operations`, dag.py lines 124-131). -/
  | duplicateOperation (name firstCollection secondCollection : String)
  /-- `'Dependency "{dependency}" does not exist for operation "{operation}"'`
  (`Dag.graph`, dag.py lines 188-191). -/
  | unknownDependency (operation dependency : String)
  /-- `"Not a DAG"` (`Dag.graph`, dag.py line 198). -/
  | notADag
  /-- A Python `KeyError` on a raw dictionary subscript (e.g.
  `self.operations[dependency]` in `Dag.validate`, line 275). -/
  | keyError (key : String)
deriving Repr, DecidableEq

/-- The advisory warnings emitted (as log lines) by `Dag.validate`; the
constructors carry the data interpolated into each message. -/
inductive Warning where
  /-- dag.py lines 276-284: a `*_start` dependency from another service. -/
  | startCrossService (operation dependency dependencyService : String)
  /-- dag.py lines 286-293: an `*_install` operation depending on a
  non-install operation. -/
  | installDependsNonInstall (operation dependency : String)
  /-- dag.py lines 302-323: a service action missing its explicit dependency
  on the previous service action. -/
  | missingPreviousServiceAction (operation service previousAction : String)
  /-- dag.py lines 331-334: a noop operation that has a playbook. -/
  | noopWithPlaybook (operation : String)
  /-- dag.py lines 336-337: a non-noop operation without a playbook. -/
  | missingPlaybook (operation : String)
  /-- dag.py lines 342-348: a service whose present actions do not cover
  install/config/start/init. -/
  | missingServiceActions (service : String) (actions : List String)
deriving Repr, DecidableEq

/-! ### String helpers -/

/-- Python `str.endswith(suffix)`. -/
def strEndsWith (s suffix : String) : Bool :=
  suffix.data.isSuffixOf s.data

/-- Code-point lexicographic strict comparison, exactly Python's `<` on
strings (Lean's built-in `String` order is byte-based and agrees, but its
decision procedure does not reduce in the kernel). -/
def charListLt : List Char → List Char → Bool
  | _, [] => false
  | [], _ :: _ => true
  | a :: as, b :: bs => a < b || (a == b && charListLt as bs)

/-- Code-point lexicographic non-strict comparison (Python `<=`). -/
def charListLe : List Char → List Char → Bool
  | [], _ => true
  | _ :: _, [] => false
  | a :: as, b :: bs => a < b || (a == b && charListLe as bs)

def strLt (s t : String) : Bool := charListLt s.data t.data

def strLe (s t : String) : Bool := charListLe s.data t.data

/-- Modelled from the spec: `tdp.core.operation.Operation` (not under src/)
derives `service` from the name; "the action is the trailing `_install` /
`_config` / `_start` / `_init` / other suffix; the service is the remaining
prefix".  The service is everything before the last underscore; a name
without an underscore is all service and carries no action suffix. -/
def Operation.service (op : Operation) : String :=
  if op.name.data.contains '_' then
    String.mk ((op.name.data.reverse.dropWhile (fun c => c ≠ '_')).drop 1).reverse
  else op.name

/-- Modelled from the spec: the action of an operation is the suffix after
the last underscore of its name; a name without an underscore has no action
suffix (modelled as the empty string). -/
def Operation.action (op : Operation) : String :=
  if op.name.data.contains '_' then
    String.mk (op.name.data.reverse.takeWhile (fun c => c ≠ '_')).reverse
  else ""

/-- Modelled from the spec: an operation is a service-level operation when
its name is exactly `{service}_{action}` — which, under the spec's
name-derivation convention, holds exactly when the name carries an action
suffix. -/
def Operation.is_service (op : Operation) : Bool :=
  op.name == op.service ++ "_" ++ op.action

/-! ### Service priorities (dag.py lines 35-48) -/

def SERVICE_PRIORITY : List (String × Nat) :=
  [("exporter", 1), ("zookeeper", 2), ("hadoop", 3), ("ranger", 4),
   ("hdfs", 5), ("yarn", 6), ("hive", 7), ("hbase", 8), ("spark", 9),
   ("spark3", 10), ("knox", 11)]

def DEFAULT_SERVICE_PRIORITY : Nat := 99

/-- `SERVICE_PRIORITY.get(service, DEFAULT_SERVICE_PRIORITY)`. -/
def servicePriority (service : String) : Nat :=
  match SERVICE_PRIORITY.find? (fun p => p.1 == service) with
  | some p => p.2
  | none => DEFAULT_SERVICE_PRIORITY

/-- The decimal digit characters, used to render `"%02d"`. -/
def digitChar10 (n : Nat) : Char :=
  match n with
  | 0 => '0' | 1 => '1' | 2 => '2' | 3 => '3' | 4 => '4'
  | 5 => '5' | 6 => '6' | 7 => '7' | 8 => '8' | 9 => '9'
  | _ => '*'

/-- Python `f"{p:02d}"`.  All priorities occurring in the code are at most
`99 = DEFAULT_SERVICE_PRIORITY`, where the format yields exactly two digits;
larger values print unpadded, as in Python. -/
def format02 (p : Nat) : String :=
  if p < 100 then String.mk [digitChar10 (p / 10), digitChar10 (p % 10)]
  else toString p

/-- Dictionary lookup `self.operations[name]` on the merged operation set
(names are unique after a successful merge). -/
def findOperation (ops : List Operation) (n : String) : Option Operation :=
  ops.find? (fun o => o.name == n)

/-- The tie-break key of `Dag.topological_sort` (dag.py lines 213-218):
`f"{priority:02d}_{node}"` where `priority` is the service priority of the
node's operation.  The `none` branch is unreachable in the pipeline (every
graph node is a merged operation name, and the source would raise
`KeyError`). -/
def custom_key (ops : List Operation) (node : String) : String :=
  let priority :=
    match findOperation ops node with
    | some op => servicePriority op.service
    | none => DEFAULT_SERVICE_PRIORITY
  format02 priority ++ "_" ++ node

/-! ### Sorting (Python `sorted`, ascending, stable) -/

def insertBy (key : α → String) (x : α) : List α → List α
  | [] => [x]
  | y :: ys => if strLe (key x) (key y) then x :: y :: ys else y :: insertBy key x ys

def sortBy (key : α → String) (l : List α) : List α :=
  l.foldr (insertBy key) []

def sortNames (l : List String) : List String :=
  sortBy id l

/-! ### Merge (the `Dag.operations` getter, dag.py lines 108-138)

The getter walks collections in order, extends a single insertion-ordered
dictionary with each declared operation, and raises on a name that is
already present, naming the collection of the first declaration and then the
offending collection. -/

/-- All raw declarations, tagged with their collection's name, in processing
order. -/
def flattenDecls (collections : List Collection) : List (String × RawOperation) :=
  collections.flatMap (fun c => c.dag_ops.map (fun o => (c.name, o)))

def mkOperation (collectionName : String) (raw : RawOperation) : Operation :=
  { name := raw.name, depends_on := raw.depends_on,
    collection_name := collectionName, noop := raw.noop }

def mergeList (acc : List Operation) :
    List (String × RawOperation) → Except DagError (List Operation)
  | [] => .ok acc
  | (cname, raw) :: rest =>
    match findOperation acc raw.name with
    | some first =>
      .error (.duplicateOperation raw.name first.collection_name cname)
    | none => mergeList (acc ++ [mkOperation cname raw]) rest

/-- The merged operation set computed by the `Dag.operations` getter. -/
def Dag.operationsBuild (collections : List Collection) :
    Except DagError (List Operation) :=
  mergeList [] (flattenDecls collections)

/-! ### The graph (the `Dag.graph` getter, dag.py lines 176-198) -/

/-- A directed graph over operation names; an edge `(u, v)` means
"`v` depends on `u`" (edges point dependency → dependent). -/
structure Graph where
  nodes : List String
  edges : List (String × String)
deriving Repr, DecidableEq

/-- The edge relation of a graph. -/
def EdgeRel (g : Graph) (u v : String) : Prop := (u, v) ∈ g.edges

/-- The per-operation inner loop of the `Dag.graph` getter: for each
dependency (in sorted order), either record the edge dependency → operation
or fail because the dependency is not a merged operation name. -/
def depEdges (names : List String) (opName : String) :
    List String → Except DagError (List (String × String))
  | [] => .ok []
  | d :: ds =>
    if names.contains d then
      match depEdges names opName ds with
      | .error e => .error e
      | .ok es => .ok ((d, opName) :: es)
    else .error (.unknownDependency opName d)

/-- The outer loop of the `Dag.graph` getter over operations in sorted name
order (`self.operations` is a dictionary keyed by name, so iterating its
sorted keys visits the operations sorted by name). -/
def collectEdges (names : List String) :
    List Operation → Except DagError (List (String × String))
  | [] => .ok []
  | op :: rest =>
    match depEdges names op.name (sortNames op.depends_on) with
    | .error e => .error e
    | .ok es =>
      match collectEdges names rest with
      | .error e => .error e
      | .ok es' => .ok (es ++ es')

/-! ### Lexicographic topological sort
(`nx.lexicographical_topological_sort(graph, custom_key)`, dag.py line 220):
Kahn's algorithm that repeatedly emits the ready node (no incoming edge from
the not-yet-emitted nodes) with the minimal key. -/

/-- Does `v` have an incoming edge whose source is still in `remaining`? -/
def hasIncomingFrom (edges : List (String × String)) (remaining : List String)
    (v : String) : Bool :=
  edges.any (fun e => e.2 == v && remaining.contains e.1)

/-- The ready nodes among `remaining`. -/
def availableNodes (edges : List (String × String)) (remaining : List String) :
    List String :=
  remaining.filter (fun v => !(hasIncomingFrom edges remaining v))

/-- The element with the minimal key (the heap minimum of the library's
implementation); keys are unique in every use below. -/
def minKeyNode (key : String → String) : List String → Option String
  | [] => none
  | x :: xs => some (xs.foldl (fun m y => if strLt (key y) (key m) then y else m) x)

/-- One fuel-indexed run of Kahn's algorithm; the fuel is always instantiated
with the number of remaining nodes, which decreases by one per step. -/
def kahnAux (key : String → String) (edges : List (String × String)) :
    Nat → List String → List String
  | 0, _ => []
  | fuel + 1, remaining =>
    match minKeyNode key (availableNodes edges remaining) with
    | none => []
    | some m => m :: kahnAux key edges fuel (remaining.erase m)

def kahnRun (key : String → String) (g : Graph) : List String :=
  kahnAux key g.edges g.nodes.length g.nodes

/-- `nx.is_directed_acyclic_graph(DG)` (dag.py line 194): a finite directed
graph is acyclic exactly when a topological sort emits every node, so the
check is embedded as completeness of the sort used throughout. -/
def is_directed_acyclic_graph (ops : List Operation) (g : Graph) : Bool :=
  (kahnRun (custom_key ops) g).length == g.nodes.length

/-- The `Dag.graph` getter (dag.py lines 176-198): nodes are the sorted
operation names; edges are added per operation (sorted by name) and per
dependency (sorted), failing on an unknown dependency; finally the graph is
returned only if it is acyclic. -/
def Dag.graphBuild (ops : List Operation) : Except DagError Graph :=
  let names := ops.map (fun o => o.name)
  match collectEdges names (sortBy (fun o => o.name) ops) with
  | .error e => .error e
  | .ok es =>
    let DG : Graph := ⟨sortNames names, es⟩
    if is_directed_acyclic_graph ops DG then .ok DG else .error .notADag

/-! ### Ordering queries (dag.py lines 208-254) -/

/-- `nx.DiGraph.subgraph(nodes)`: the subgraph induced on the given node
set. -/
def Graph.subgraph (g : Graph) (s : List String) : Graph :=
  ⟨g.nodes.filter (fun n => s.contains n),
   g.edges.filter (fun e => s.contains e.1 && s.contains e.2)⟩

/-- `Dag.topological_sort(nodes)` (dag.py lines 208-220): sort the subgraph
induced on `nodes` when that argument is truthy (a non-empty set), else the
whole graph. -/
def Dag.topological_sort (ops : List Operation) (g : Graph)
    (nodes : List String) : List String :=
  let graph := if nodes.isEmpty then g else g.subgraph nodes
  kahnRun (custom_key ops) graph

/-- `Dag.get_all_operations` (dag.py lines 241-247): `topological_sort` is
passed the graph itself, i.e. the set of all its nodes. -/
def Dag.get_all_operations (ops : List Operation) (g : Graph) : List String :=
  Dag.topological_sort ops g g.nodes

/-- Saturation of a node set under a one-step expansion, with enough fuel to
reach the fixpoint; used to embed `nx.ancestors` / `nx.descendants`. -/
def saturate (next : List String → List String) :
    Nat → List String → List String
  | 0, s => s
  | fuel + 1, s =>
    let news := ((next s).filter (fun u => !(s.contains u))).dedup
    if news.isEmpty then s else saturate next fuel (s ++ news)

/-- The sources of edges into the set `s`. -/
def predsOf (edges : List (String × String)) (s : List String) : List String :=
  (edges.filter (fun e => s.contains e.2)).map (fun e => e.1)

/-- The targets of edges out of the set `s`. -/
def succsOf (edges : List (String × String)) (s : List String) : List String :=
  (edges.filter (fun e => s.contains e.1)).map (fun e => e.2)

/-- `{t} ∪ nx.ancestors(graph, t)`: `t` together with every node having a
path to `t`. -/
def ancestorsWith (g : Graph) (t : String) : List String :=
  saturate (predsOf g.edges) g.nodes.length [t]

/-- `{s} ∪ nx.descendants(graph, s)`: `s` together with every node reachable
from `s`. -/
def descendantsWith (g : Graph) (s : String) : List String :=
  saturate (succsOf g.edges) g.nodes.length [s]

/-- `Dag.get_operations_to_nodes` (dag.py lines 229-233): the union of the
targets with all their ancestors, sorted. -/
def Dag.get_operations_to_nodes (ops : List Operation) (g : Graph)
    (nodes : List String) : List String :=
  Dag.topological_sort ops g (nodes ++ nodes.flatMap (ancestorsWith g))

/-- `Dag.get_operations_from_nodes` (dag.py lines 235-239): the union of the
sources with all their descendants, sorted. -/
def Dag.get_operations_from_nodes (ops : List Operation) (g : Graph)
    (nodes : List String) : List String :=
  Dag.topological_sort ops g (nodes ++ nodes.flatMap (descendantsWith g))

/-- `Dag.get_operations` (dag.py lines 222-227): a truthy `sources` wins,
then a truthy `targets`, else the full order (Python `None` and the empty
set are both falsy, so both defaults are modelled by the empty list). -/
def Dag.get_operations (ops : List Operation) (g : Graph)
    (sources targets : List String) : List String :=
  if !sources.isEmpty then Dag.get_operations_from_nodes ops g sources
  else if !targets.isEmpty then Dag.get_operations_to_nodes ops g targets
  else Dag.get_all_operations ops g

/-- `Dag.filter_operations_regex` (dag.py lines 252-254).  Python
`re.compile(regex).match(name)` succeeds exactly when some prefix of `name`
is in the regex's language (anchored at the start, not required to consume
the whole name); the regular fragment of Python's `re` is embedded with
Mathlib's `RegularExpression`. -/
def filter_operations_regex (operations : List String)
    (regex : RegularExpression Char) : List String :=
  operations.filter (fun name => name.data.inits.any (fun p => regex.rmatch p))

/-! ### Validation (`Dag.validate`, dag.py lines 256-348)

The source logs warnings and returns nothing; the embedding collects the
warnings in emission order.  A dictionary subscript on a missing key
(`self.operations[dependency]`, `self._collections[collection_name]`) is a
Python `KeyError`, embedded as `DagError.keyError`. -/

def actions_order : List String := ["install", "config", "start", "init"]

/-- The set literal `{"install", "config", "start", "init"}` of dag.py
line 342. -/
def actions_for_service : List String := ["install", "config", "start", "init"]

/-- The per-dependency loop of `Dag.validate` (dag.py lines 273-293): the
cross-service `*_start` rule and the `*_install` rule, in that order. -/
def validateDeps (ops : List Operation) (op : Operation) :
    List String → Except DagError (List Warning)
  | [] => .ok []
  | d :: ds =>
    match findOperation ops d with
    | none => .error (.keyError d)
    | some depOp =>
      let w1 : List Warning :=
        if strEndsWith d "_start" && !(depOp.service == op.service) then
          [.startCrossService op.name d depOp.service]
        else []
      let w2 : List Warning :=
        if strEndsWith op.name "_install" && !(strEndsWith d "_install") then
          [.installDependsNonInstall op.name d]
        else []
      match validateDeps ops op ds with
      | .error e => .error e
      | .ok ws => .ok (w1 ++ w2 ++ ws)

/-- Python `actions_order[actions_order.index(action) - 1]`. -/
def previousAction (action : String) : String :=
  actions_order.getD (actions_order.indexOf action - 1) ""

/-- The sequential-lifecycle rule of `Dag.validate` (dag.py lines 302-323),
checked for service operations whose action is a non-initial lifecycle
action. -/
def rule5Warnings (op : Operation) : List Warning :=
  if actions_order.contains op.action && !(op.action == "install") then
    let previous_action := previousAction op.action
    let previous_service_action := op.service ++ "_" ++ previous_action
    if op.depends_on.any (fun d => d == previous_service_action) then []
    else [.missingPreviousServiceAction op.name op.service previous_action]
  else []

/-- `services_actions.setdefault(operation.service, set())` (dag.py
line 298): ensure the service has an entry. -/
def setdefaultService (m : List (String × List String)) (service : String) :
    List (String × List String) :=
  if m.any (fun p => p.1 == service) then m else m ++ [(service, [])]

/-- `service_actions.add(operation.action)` (dag.py line 300), with set
semantics on the service's action collection. -/
def addServiceAction (m : List (String × List String)) (service action : String) :
    List (String × List String) :=
  m.map (fun p =>
    if p.1 == service then
      (p.1, if p.2.contains action then p.2 else p.2 ++ [action])
    else p)

/-- Dictionary lookup `self._collections[name]`. -/
def findCollection (collections : List Collection) (n : String) :
    Option Collection :=
  collections.find? (fun c => c.name == n)

/-- The warnings contributed by one operation in the main loop of
`Dag.validate` (dependency rules, then the sequential-lifecycle rule, then
the playbook/noop rule), independent of the running `services_actions`
state. -/
def validateOpWarnings (collections : List Collection) (ops : List Operation)
    (op : Operation) : Except DagError (List Warning) :=
  match validateDeps ops op op.depends_on with
  | .error e => .error e
  | .ok depWs =>
    let serviceWs := if op.is_service then rule5Warnings op else []
    match findCollection collections op.collection_name with
    | none => .error (.keyError op.collection_name)
    | some c =>
      let playbookWs :=
        if c.operations.contains op.name then
          if op.noop then [.noopWithPlaybook op.name] else []
        else
          if !op.noop then [.missingPlaybook op.name] else []
      .ok (depWs ++ serviceWs ++ playbookWs)

/-- The `services_actions` update performed for one operation (dag.py
lines 298-300). -/
def validateOpMap (m : List (String × List String)) (op : Operation) :
    List (String × List String) :=
  let m1 := setdefaultService m op.service
  if op.is_service then addServiceAction m1 op.service op.action else m1

/-- The main loop of `Dag.validate` over the merged operations, threading
the `services_actions` state. -/
def validateAux (collections : List Collection) (ops : List Operation)
    (m : List (String × List String)) :
    List Operation → Except DagError (List Warning × List (String × List String))
  | [] => .ok ([], m)
  | op :: rest =>
    match validateOpWarnings collections ops op with
    | .error e => .error e
    | .ok ws =>
      match validateAux collections ops (validateOpMap m op) rest with
      | .error e => .error e
      | .ok (ws', m') => .ok (ws ++ ws', m')

/-- The final loop of `Dag.validate` (dag.py lines 342-348): warn for every
service whose present actions do not cover
`{install, config, start, init}`. -/
def part2Warnings (m : List (String × List String)) : List Warning :=
  m.filterMap (fun p =>
    if actions_for_service.all (fun a => p.2.contains a) then none
    else some (.missingServiceActions p.1 p.2))

/-- `Dag.validate` as a pure function: the collected warnings in emission
order, or the first `KeyError`. -/
def validateRun (collections : List Collection) (ops : List Operation) :
    Except DagError (List Warning) :=
  match validateAux collections ops [] ops with
  | .error e => .error e
  | .ok (ws, m) => .ok (ws ++ part2Warnings m)

/-! ### The cached state of a `Dag` instance (dag.py lines 54-206)

The Python class stores `_collections` and four lazily computed caches.
(`_yaml_files` is initialised to `None` and never assigned again anywhere in
the file, so it is omitted.)  Property setters and deleters are state
transformers; the deleter cascade is modelled exactly as written. -/

structure DagState where
  _collections : List Collection
  _operations : Option (List Operation)
  _graph : Option Graph
  _services : Option (List String)
  _services_operations : Option (List (String × List Operation))
deriving Repr, DecidableEq

/-- `Dag.__init__` (dag.py lines 54-64). -/
def Dag.init (collections : List Collection) : DagState :=
  ⟨collections, none, none, none, none⟩

/-- The `services` deleter (dag.py lines 172-174). -/
def Dag.delServices (s : DagState) : DagState :=
  { s with _services := none }

/-- The `services_operations` deleter (dag.py lines 161-164): clear the
index, then delete `services`. -/
def Dag.delServicesOperations (s : DagState) : DagState :=
  Dag.delServices { s with _services_operations := none }

/-- The `graph` setter (dag.py lines 200-202). -/
def Dag.setGraph (s : DagState) (v : Option Graph) : DagState :=
  { s with _graph := v }

/-- The `graph` deleter (dag.py lines 204-206): assign `None` through the
setter. -/
def Dag.delGraph (s : DagState) : DagState :=
  Dag.setGraph s none

/-- The `operations` setter (dag.py lines 140-145): store the value, then
delete `graph`, `services_operations` and `services`, in that order. -/
def Dag.setOperations (s : DagState) (v : Option (List Operation)) : DagState :=
  Dag.delServices (Dag.delServicesOperations (Dag.delGraph { s with _operations := v }))

/-- The `operations` deleter (dag.py lines 147-149): assign `None` through
the setter. -/
def Dag.delOperations (s : DagState) : DagState :=
  Dag.setOperations s none

/-- The `collections` setter (dag.py lines 103-106): store the new
collections, then delete `operations` (which cascades to every derived
cache). -/
def Dag.setCollections (s : DagState) (collections : List Collection) : DagState :=
  Dag.delOperations { s with _collections := collections }

/-- The `operations` getter (dag.py lines 108-138) as a state transformer:
return the cache if present, else merge (raising on duplicates), cache the
result, and validate (whose warnings are logged; its `KeyError` propagates
after the cache was already filled, exactly as in the source). -/
def Dag.operationsGet (s : DagState) :
    DagState × Except DagError (List Operation) :=
  match s._operations with
  | some ops => (s, .ok ops)
  | none =>
    match Dag.operationsBuild s._collections with
    | .error e => (s, .error e)
    | .ok ops =>
      let s' := { s with _operations := some ops }
      match validateRun s._collections ops with
      | .error e => (s', .error e)
      | .ok _ => (s', .ok ops)

/-- The `graph` getter (dag.py lines 176-198) as a state transformer. -/
def Dag.graphGet (s : DagState) : DagState × Except DagError Graph :=
  match s._graph with
  | some g => (s, .ok g)
  | none =>
    match Dag.operationsGet s with
    | (s', .error e) => (s', .error e)
    | (s', .ok ops) =>
      match Dag.graphBuild ops with
      | .error e => (s', .error e)
      | .ok g => ({ s' with _graph := some g }, .ok g)

/-! ### Concrete fixtures used by witnesses and counterexamples -/

def c1ops : List Operation :=
  [{ name := "a_install", depends_on := [], collection_name := "core", noop := false },
   { name := "a_config", depends_on := ["a_install"], collection_name := "core", noop := false },
   { name := "b_install", depends_on := [], collection_name := "core", noop := false }]

def c1graph : Graph :=
  ⟨["a_config", "a_install", "b_install"], [("a_install", "a_config")]⟩

def c2ops : List Operation :=
  [{ name := "exporter_install", depends_on := ["unknownsvc_install"],
     collection_name := "core", noop := false },
   { name := "unknownsvc_install", depends_on := [], collection_name := "core", noop := false },
   { name := "zookeeper_install", depends_on := [], collection_name := "core", noop := false }]

def c2graph : Graph :=
  ⟨["exporter_install", "unknownsvc_install", "zookeeper_install"],
   [("unknownsvc_install", "exporter_install")]⟩

def c2wOps : List Operation :=
  [{ name := "exporter_install", depends_on := [], collection_name := "core", noop := false },
   { name := "zookeeper_install", depends_on := [], collection_name := "core", noop := false }]

def c2wGraph : Graph :=
  ⟨["exporter_install", "zookeeper_install"], []⟩

def c2opU : Operation :=
  { name := "exporter_install", depends_on := ["unknownsvc_install"],
    collection_name := "core", noop := false }

def c2opV : Operation :=
  { name := "zookeeper_install", depends_on := [], collection_name := "core", noop := false }

def c2wOpU : Operation :=
  { name := "exporter_install", depends_on := [], collection_name := "core", noop := false }

def c2wOpV : Operation :=
  { name := "zookeeper_install", depends_on := [], collection_name := "core", noop := false }

def c3ops : List Operation :=
  [{ name := "a_config", depends_on := ["missing_op"], collection_name := "core", noop := false }]

def c5ops : List Operation :=
  [{ name := "a_install", depends_on := ["b_install"], collection_name := "core", noop := false },
   { name := "b_install", depends_on := ["a_install"], collection_name := "core", noop := false }]

def c6collections : List Collection :=
  [⟨"collection1", [⟨"x_install", [], false⟩], ["x_install"]⟩,
   ⟨"collection2", [⟨"x_install", [], false⟩], ["x_install"]⟩]

def c8ops : List Operation :=
  [{ name := "svc_install", depends_on := [], collection_name := "core", noop := false },
   { name := "svc_config", depends_on := [], collection_name := "core", noop := false }]

def c8collections : List Collection :=
  [⟨"core", [⟨"svc_install", [], false⟩, ⟨"svc_config", [], false⟩],
    ["svc_install", "svc_config"]⟩]

/-! ### Order lemmas for the code-point comparison -/

theorem charListLt_irrefl : ∀ l : List Char, charListLt l l = false
  | [] => rfl
  | a :: as => by
    simp [charListLt, lt_irrefl, charListLt_irrefl as]

theorem charListLt_trans : ∀ {a b c : List Char},
    charListLt a b = true → charListLt b c = true → charListLt a c = true
  | _, [], _, hab, _ => by simp [charListLt] at hab
  | _ :: _, _ :: _, [], _, hbc => by simp [charListLt] at hbc
  | [], _ :: _, [], _, hbc => by simp [charListLt] at hbc
  | [], _ :: _, _ :: _, _, _ => rfl
  | a :: as, b :: bs, c :: cs, hab, hbc => by
    simp only [charListLt, Bool.or_eq_true, Bool.and_eq_true, beq_iff_eq,
      decide_eq_true_eq] at *
    rcases hab with hab | ⟨rfl, hab⟩
    · rcases hbc with hbc | ⟨rfl, _⟩
      · exact Or.inl (lt_trans hab hbc)
      · exact Or.inl hab
    · rcases hbc with hbc | ⟨rfl, hbc⟩
      · exact Or.inl hbc
      · exact Or.inr ⟨rfl, charListLt_trans hab hbc⟩

theorem charListLt_eq_of_not_lt : ∀ {a b : List Char},
    charListLt a b = false → charListLt b a = false → a = b
  | [], [], _, _ => rfl
  | [], _ :: _, hab, _ => by simp [charListLt] at hab
  | _ :: _, [], _, hba => by simp [charListLt] at hba
  | a :: as, b :: bs, hab, hba => by
    simp only [charListLt, Bool.or_eq_false_iff, Bool.and_eq_false_iff,
      beq_eq_false_iff_ne, ne_eq, decide_eq_false_iff_not] at hab hba
    obtain ⟨hab1, hab2⟩ := hab
    obtain ⟨hba1, hba2⟩ := hba
    have hcl : a = b := le_antisymm (le_of_not_lt hba1) (le_of_not_lt hab1)
    subst hcl
    rcases hab2 with h | h
    · exact absurd rfl h
    · rcases hba2 with h' | h'
      · exact absurd rfl h'
      · exact congrArg (a :: ·) (charListLt_eq_of_not_lt h h')

theorem strLt_irrefl (s : String) : strLt s s = false :=
  charListLt_irrefl s.data

theorem strLt_trans {a b c : String} (hab : strLt a b = true)
    (hbc : strLt b c = true) : strLt a c = true :=
  charListLt_trans hab hbc

theorem strLt_eq_of_not_lt {a b : String} (hab : strLt a b = false)
    (hba : strLt b a = false) : a = b := by
  cases a; cases b
  exact congrArg String.mk (charListLt_eq_of_not_lt hab hba)

/-! ### Lemmas about the minimal-key selection -/

theorem foldlMinKey_mem (key : String → String) :
    ∀ (xs : List String) (x : String),
      xs.foldl (fun m y => if strLt (key y) (key m) then y else m) x ∈ x :: xs
  | [], _ => List.mem_singleton.mpr rfl
  | y :: ys, x => by
    have h := foldlMinKey_mem key ys (if strLt (key y) (key x) then y else x)
    simp only [List.foldl_cons]
    rcases List.mem_cons.mp h with h | h
    · rw [h]
      split
      · exact List.mem_cons_of_mem _ (List.mem_cons_self _ _)
      · exact List.mem_cons_self _ _
    · exact List.mem_cons_of_mem _ (List.mem_cons_of_mem _ h)

/-- In a linear order, "not below" is transitive. -/
theorem strLt_false_trans {a b c : String} (hab : strLt a b = false)
    (hbc : strLt b c = false) : strLt a c = false := by
  by_contra hac
  have hac' : strLt a c = true := Bool.not_eq_false _ |>.mp hac
  by_cases hcb : strLt c b = true
  · have := strLt_trans hac' hcb
    rw [hab] at this
    exact Bool.noConfusion this
  · have heq : b = c := strLt_eq_of_not_lt hbc (Bool.eq_false_iff.mpr hcb)
    rw [← heq, hab] at hac'
    exact Bool.noConfusion hac'

theorem foldlMinKey_min (key : String → String) :
    ∀ (xs : List String) (x : String) (y : String), y ∈ x :: xs →
      strLt (key y)
        (key (xs.foldl (fun m z => if strLt (key z) (key m) then z else m) x)) = false := by
  intro xs
  induction xs with
  | nil =>
    intro x y hy
    rw [List.mem_singleton.mp hy]
    exact strLt_irrefl _
  | cons z zs ih =>
    intro x y hy
    simp only [List.foldl_cons]
    have hxx' : strLt (key x)
        (key (if strLt (key z) (key x) then z else x)) = false := by
      by_cases h : strLt (key z) (key x) = true
      · rw [if_pos h]
        by_contra hc
        have hc' : strLt (key x) (key z) = true := Bool.not_eq_false _ |>.mp hc
        have := strLt_trans hc' h
        rw [strLt_irrefl] at this
        exact Bool.noConfusion this
      · rw [if_neg h]
        exact strLt_irrefl _
    have hzx' : strLt (key z)
        (key (if strLt (key z) (key x) then z else x)) = false := by
      by_cases h : strLt (key z) (key x) = true
      · rw [if_pos h]
        exact strLt_irrefl _
      · rw [if_neg h]
        exact Bool.eq_false_iff.mpr h
    have hx'r : strLt (key (if strLt (key z) (key x) then z else x))
        (key (zs.foldl (fun m w => if strLt (key w) (key m) then w else m)
          (if strLt (key z) (key x) then z else x))) = false :=
      ih _ _ (List.mem_cons_self _ _)
    rcases List.mem_cons.mp hy with rfl | hy'
    · exact strLt_false_trans hxx' hx'r
    · rcases List.mem_cons.mp hy' with rfl | hy''
      · exact strLt_false_trans hzx' hx'r
      · exact ih _ y (List.mem_cons_of_mem _ hy'')

theorem minKeyNode_mem {key : String → String} {l : List String} {m : String}
    (h : minKeyNode key l = some m) : m ∈ l := by
  cases l with
  | nil => exact absurd h (by simp [minKeyNode])
  | cons x xs =>
    have := foldlMinKey_mem key xs x
    simp only [minKeyNode, Option.some_inj] at h
    rw [h] at this
    exact this

theorem minKeyNode_min {key : String → String} {l : List String} {m : String}
    (h : minKeyNode key l = some m) :
    ∀ y ∈ l, strLt (key y) (key m) = false := by
  cases l with
  | nil => exact absurd h (by simp [minKeyNode])
  | cons x xs =>
    intro y hy
    simp only [minKeyNode, Option.some_inj] at h
    rw [← h]
    exact foldlMinKey_min key xs x y hy

theorem minKeyNode_eq_none {key : String → String} {l : List String} :
    minKeyNode key l = none ↔ l = [] := by
  cases l <;> simp [minKeyNode]

theorem minKeyNode_eq_some {key : String → String} {l : List String} {m : String}
    (hinj : ∀ x y, key x = key y → x = y) (hm : m ∈ l)
    (hmin : ∀ y ∈ l, strLt (key y) (key m) = false) :
    minKeyNode key l = some m := by
  cases hr : minKeyNode key l with
  | none =>
    rw [minKeyNode_eq_none.mp hr] at hm
    exact absurd hm (List.not_mem_nil m)
  | some r =>
    have h1 : strLt (key r) (key m) = false := hmin r (minKeyNode_mem hr)
    have h2 : strLt (key m) (key r) = false := minKeyNode_min hr m hm
    exact congrArg some (hinj r m (strLt_eq_of_not_lt h1 h2))

/-! ### Lemmas about Kahn's algorithm -/

theorem kahnAux_succ_none {key : String → String} {edges : List (String × String)}
    {n : Nat} {remaining : List String}
    (h : minKeyNode key (availableNodes edges remaining) = none) :
    kahnAux key edges (n + 1) remaining = [] := by
  rw [kahnAux, h]

theorem kahnAux_succ_some {key : String → String} {edges : List (String × String)}
    {n : Nat} {remaining : List String} {m : String}
    (h : minKeyNode key (availableNodes edges remaining) = some m) :
    kahnAux key edges (n + 1) remaining
      = m :: kahnAux key edges n (remaining.erase m) := by
  rw [kahnAux, h]

theorem mem_availableNodes {edges : List (String × String)}
    {remaining : List String} {v : String} :
    v ∈ availableNodes edges remaining ↔
      v ∈ remaining ∧ ∀ u ∈ remaining, (u, v) ∉ edges := by
  simp only [availableNodes, List.mem_filter, Bool.not_eq_true', hasIncomingFrom]
  constructor
  · rintro ⟨hv, hcond⟩
    refine ⟨hv, fun u hu huv => ?_⟩
    have h' : edges.any (fun e => e.2 == v && remaining.contains e.1) = true :=
      List.any_eq_true.mpr ⟨(u, v), huv, by
        simp only [beq_self_eq_true, Bool.true_and]
        exact List.elem_iff.mpr hu⟩
    rw [hcond] at h'
    exact Bool.noConfusion h'
  · rintro ⟨hv, hcond⟩
    refine ⟨hv, ?_⟩
    cases hx : edges.any (fun e => e.2 == v && remaining.contains e.1) with
    | false => rfl
    | true =>
      obtain ⟨e, he, hce⟩ := List.any_eq_true.mp hx
      simp only [Bool.and_eq_true, beq_iff_eq] at hce
      obtain ⟨he2, he1⟩ := hce
      exact absurd (show (e.1, v) ∈ edges by rw [← he2, Prod.mk.eta]; exact he)
        (hcond e.1 (List.elem_iff.mp he1))

/-- Every node emitted by the sort was among the remaining nodes. -/
theorem kahnAux_subset {key : String → String} {edges : List (String × String)} :
    ∀ {fuel : Nat} {remaining : List String} {x : String},
      x ∈ kahnAux key edges fuel remaining → x ∈ remaining := by
  intro fuel
  induction fuel with
  | zero =>
    intro remaining x hx
    rw [kahnAux] at hx
    exact absurd hx (List.not_mem_nil x)
  | succ n ih =>
    intro remaining x hx
    cases hmin : minKeyNode key (availableNodes edges remaining) with
    | none =>
      rw [kahnAux_succ_none hmin] at hx
      exact absurd hx (List.not_mem_nil x)
    | some m =>
      rw [kahnAux_succ_some hmin] at hx
      have hm : m ∈ remaining :=
        mem_availableNodes.mp (minKeyNode_mem hmin) |>.1
      rcases List.mem_cons.mp hx with rfl | hx'
      · exact hm
      · exact List.mem_of_mem_erase (ih hx')

/-- A complete run of the sort is a permutation of the remaining nodes. -/
theorem kahnAux_perm {key : String → String} {edges : List (String × String)} :
    ∀ {fuel : Nat} {remaining : List String}, fuel = remaining.length →
      (kahnAux key edges fuel remaining).length = remaining.length →
      (kahnAux key edges fuel remaining).Perm remaining := by
  intro fuel
  induction fuel with
  | zero =>
    intro remaining hfuel _
    have hnil : remaining = [] := List.length_eq_zero.mp hfuel.symm
    subst hnil
    rw [kahnAux]
  | succ n ih =>
    intro remaining hfuel hlen
    cases hmin : minKeyNode key (availableNodes edges remaining) with
    | none =>
      rw [kahnAux_succ_none hmin] at hlen
      rw [← hfuel] at hlen
      exact absurd hlen.symm (Nat.succ_ne_zero n)
    | some m =>
      rw [kahnAux_succ_some hmin] at hlen ⊢
      have hm : m ∈ remaining :=
        mem_availableNodes.mp (minKeyNode_mem hmin) |>.1
      have herase : n = (remaining.erase m).length := by
        rw [List.length_erase_of_mem hm, ← hfuel]
        rfl
      have hrec : (kahnAux key edges n (remaining.erase m)).length
          = (remaining.erase m).length := by
        simp only [List.length_cons, ← hfuel] at hlen
        omega
      exact ((ih herase hrec).cons m).trans (List.perm_cons_erase hm).symm

/-- If `(u, v)` is an edge and `u` is still remaining, then `u` is emitted
before `v`: whenever the output splits at `v`, `u` is in the earlier part. -/
theorem kahnAux_before {key : String → String} {edges : List (String × String)}
    {u v : String} (hedge : (u, v) ∈ edges) :
    ∀ {fuel : Nat} {remaining : List String} {l1 l2 : List String},
      u ∈ remaining → kahnAux key edges fuel remaining = l1 ++ v :: l2 →
      u ∈ l1 := by
  intro fuel
  induction fuel with
  | zero =>
    intro remaining l1 l2 _ heq
    rw [kahnAux] at heq
    exact absurd heq (by simp)
  | succ n ih =>
    intro remaining l1 l2 hu heq
    cases hmin : minKeyNode key (availableNodes edges remaining) with
    | none =>
      rw [kahnAux_succ_none hmin] at heq
      exact absurd heq (by simp)
    | some m =>
      rw [kahnAux_succ_some hmin] at heq
      cases l1 with
      | nil =>
        simp only [List.nil_append, List.cons.injEq] at heq
        obtain ⟨rfl, _⟩ := heq
        have hav := mem_availableNodes.mp (minKeyNode_mem hmin)
        exact absurd hedge (hav.2 u hu)
      | cons a l1' =>
        simp only [List.cons_append, List.cons.injEq] at heq
        obtain ⟨rfl, heq'⟩ := heq
        by_cases hum : u = m
        · exact hum ▸ List.mem_cons_self _ _
        · exact List.mem_cons_of_mem _
            (ih (List.mem_erase_of_ne hum |>.mpr hu) heq')

/-! ### Sorting is a permutation -/

theorem insertBy_perm (key : α → String) (x : α) :
    ∀ l : List α, (insertBy key x l).Perm (x :: l)
  | [] => List.Perm.refl _
  | y :: ys => by
    rw [insertBy]
    split
    · exact List.Perm.refl _
    · exact ((insertBy_perm key x ys).cons y).trans (List.Perm.swap x y ys)

theorem sortBy_perm (key : α → String) :
    ∀ l : List α, (sortBy key l).Perm l
  | [] => List.Perm.refl _
  | x :: xs =>
    ((insertBy_perm key x (sortBy key xs)).trans
      ((sortBy_perm key xs).cons x))

theorem mem_sortBy {key : α → String} {l : List α} {x : α} :
    x ∈ sortBy key l ↔ x ∈ l :=
  (sortBy_perm key l).mem_iff

theorem mem_sortNames {l : List String} {x : String} :
    x ∈ sortNames l ↔ x ∈ l :=
  mem_sortBy

/-! ### Positions in lists -/

theorem first_split {α : Type _} {l : List α} {a : α} (h : a ∈ l) :
    ∃ s t, l = s ++ a :: t ∧ a ∉ s := by
  induction l with
  | nil => exact absurd h (List.not_mem_nil a)
  | cons x xs ih =>
    by_cases hax : a = x
    · exact ⟨[], xs, by rw [hax, List.nil_append], List.not_mem_nil a⟩
    · obtain ⟨s, t, heq, hns⟩ := ih (List.mem_of_ne_of_mem hax h)
      exact ⟨x :: s, t, by rw [heq, List.cons_append], by
        intro hc
        rcases List.mem_cons.mp hc with h' | h'
        · exact hax h'
        · exact hns h'⟩

theorem indexOf_first_occurrence {s : List String} {v : String} (h : v ∉ s)
    (t : List String) : List.indexOf v (s ++ v :: t) = s.length := by
  induction s with
  | nil => exact List.indexOf_cons_self v t
  | cons x s' ih =>
    have hvx : x ≠ v := fun hc => h (hc ▸ List.mem_cons_self x s')
    rw [List.cons_append, List.indexOf_cons_ne _ hvx,
      ih (fun hc => h (List.mem_cons_of_mem x hc))]
    rfl

theorem indexOf_lt_of_mem_left {s : List String} {u : String} (h : u ∈ s)
    (t : List String) : List.indexOf u (s ++ t) < s.length := by
  induction s with
  | nil => exact absurd h (List.not_mem_nil u)
  | cons x s' ih =>
    by_cases hux : x = u
    · rw [List.cons_append, hux, List.indexOf_cons_self]
      exact Nat.succ_pos _
    · rw [List.cons_append, List.indexOf_cons_ne _ hux]
      exact Nat.succ_lt_succ (ih (List.mem_of_ne_of_mem (fun hc => hux hc.symm) h))

/-! ### Inversion of the graph builder -/

theorem depEdges_ok_mem {names : List String} {opName : String} :
    ∀ {ds : List String} {es : List (String × String)},
      depEdges names opName ds = .ok es →
      ∀ a b, ((a, b) ∈ es ↔ b = opName ∧ a ∈ ds) := by
  intro ds
  induction ds with
  | nil =>
    intro es h a b
    rw [depEdges] at h
    obtain rfl : ([] : List (String × String)) = es := by
      simpa using h
    simp
  | cons d ds' ih =>
    intro es h a b
    rw [depEdges] at h
    by_cases hc : names.contains d = true
    · rw [if_pos hc] at h
      cases hrec : depEdges names opName ds' with
      | error e => rw [hrec] at h; exact Except.noConfusion h
      | ok es' =>
        rw [hrec] at h
        obtain rfl : (d, opName) :: es' = es := by simpa using h
        constructor
        · intro hmem
          rcases List.mem_cons.mp hmem with heq | hmem'
          · simp only [Prod.mk.injEq] at heq
            obtain ⟨rfl, rfl⟩ := heq
            exact ⟨rfl, List.mem_cons_self _ _⟩
          · obtain ⟨rfl, hd⟩ := (ih hrec a b).mp hmem'
            exact ⟨rfl, List.mem_cons_of_mem _ hd⟩
        · rintro ⟨rfl, hmem⟩
          rcases List.mem_cons.mp hmem with rfl | hmem'
          · exact List.mem_cons_self _ _
          · exact List.mem_cons_of_mem _ ((ih hrec a b).mpr ⟨rfl, hmem'⟩)
    · rw [if_neg hc] at h
      exact Except.noConfusion h

theorem depEdges_ok_contains {names : List String} {opName : String} :
    ∀ {ds : List String} {es : List (String × String)},
      depEdges names opName ds = .ok es →
      ∀ a b, (a, b) ∈ es → names.contains a = true := by
  intro ds
  induction ds with
  | nil =>
    intro es h a b hmem
    rw [depEdges] at h
    obtain rfl : ([] : List (String × String)) = es := by simpa using h
    exact absurd hmem (List.not_mem_nil _)
  | cons d ds' ih =>
    intro es h a b hmem
    rw [depEdges] at h
    by_cases hc : names.contains d = true
    · rw [if_pos hc] at h
      cases hrec : depEdges names opName ds' with
      | error e => rw [hrec] at h; exact Except.noConfusion h
      | ok es' =>
        rw [hrec] at h
        obtain rfl : (d, opName) :: es' = es := by simpa using h
        rcases List.mem_cons.mp hmem with heq | hmem'
        · simp only [Prod.mk.injEq] at heq
          exact heq.1 ▸ hc
        · exact ih hrec a b hmem'
    · rw [if_neg hc] at h
      exact Except.noConfusion h

theorem depEdges_error {names : List String} {opName : String} :
    ∀ {ds : List String} {e : DagError},
      depEdges names opName ds = .error e →
      ∃ d, e = .unknownDependency opName d ∧ d ∈ ds ∧ names.contains d = false := by
  intro ds
  induction ds with
  | nil =>
    intro e h
    rw [depEdges] at h
    exact Except.noConfusion h
  | cons d ds' ih =>
    intro e h
    rw [depEdges] at h
    by_cases hc : names.contains d = true
    · rw [if_pos hc] at h
      cases hrec : depEdges names opName ds' with
      | error e' =>
        rw [hrec] at h
        obtain rfl : e' = e := by simpa using h
        obtain ⟨d', he, hd, hcf⟩ := ih hrec
        exact ⟨d', he, List.mem_cons_of_mem _ hd, hcf⟩
      | ok es' =>
        rw [hrec] at h
        exact Except.noConfusion h
    · rw [if_neg hc] at h
      obtain rfl : DagError.unknownDependency opName d = e := by simpa using h
      exact ⟨d, rfl, List.mem_cons_self _ _, Bool.eq_false_iff.mpr hc⟩

theorem collectEdges_ok_mem {names : List String} :
    ∀ {l : List Operation} {es : List (String × String)},
      collectEdges names l = .ok es →
      ∀ a b, ((a, b) ∈ es ↔ ∃ op ∈ l, op.name = b ∧ a ∈ sortNames op.depends_on) := by
  intro l
  induction l with
  | nil =>
    intro es h a b
    rw [collectEdges] at h
    obtain rfl : ([] : List (String × String)) = es := by simpa using h
    simp
  | cons op rest ih =>
    intro es h a b
    rw [collectEdges] at h
    cases hdep : depEdges names op.name (sortNames op.depends_on) with
    | error e => rw [hdep] at h; exact Except.noConfusion h
    | ok es1 =>
      rw [hdep] at h
      cases hrec : collectEdges names rest with
      | error e => rw [hrec] at h; exact Except.noConfusion h
      | ok es2 =>
        rw [hrec] at h
        obtain rfl : es1 ++ es2 = es := by simpa using h
        constructor
        · intro hmem
          rcases List.mem_append.mp hmem with h1 | h2
          · obtain ⟨rfl, hd⟩ := (depEdges_ok_mem hdep a b).mp h1
            exact ⟨op, List.mem_cons_self _ _, rfl, hd⟩
          · obtain ⟨op', hop', hn, hd⟩ := (ih hrec a b).mp h2
            exact ⟨op', List.mem_cons_of_mem _ hop', hn, hd⟩
        · rintro ⟨op', hop', rfl, hd⟩
          rcases List.mem_cons.mp hop' with rfl | hop''
          · exact List.mem_append_left _ ((depEdges_ok_mem hdep a _).mpr ⟨rfl, hd⟩)
          · exact List.mem_append_right _ ((ih hrec a _).mpr ⟨op', hop'', rfl, hd⟩)

theorem collectEdges_ok_contains {names : List String} :
    ∀ {l : List Operation} {es : List (String × String)},
      collectEdges names l = .ok es →
      ∀ a b, (a, b) ∈ es → names.contains a = true := by
  intro l
  induction l with
  | nil =>
    intro es h a b hmem
    rw [collectEdges] at h
    obtain rfl : ([] : List (String × String)) = es := by simpa using h
    exact absurd hmem (List.not_mem_nil _)
  | cons op rest ih =>
    intro es h a b hmem
    rw [collectEdges] at h
    cases hdep : depEdges names op.name (sortNames op.depends_on) with
    | error e => rw [hdep] at h; exact Except.noConfusion h
    | ok es1 =>
      rw [hdep] at h
      cases hrec : collectEdges names rest with
      | error e => rw [hrec] at h; exact Except.noConfusion h
      | ok es2 =>
        rw [hrec] at h
        obtain rfl : es1 ++ es2 = es := by simpa using h
        rcases List.mem_append.mp hmem with h1 | h2
        · exact depEdges_ok_contains hdep a b h1
        · exact ih hrec a b h2

theorem collectEdges_error {names : List String} :
    ∀ {l : List Operation} {e : DagError},
      collectEdges names l = .error e →
      ∃ op d, op ∈ l ∧ e = .unknownDependency op.name d ∧
        d ∈ op.depends_on ∧ names.contains d = false := by
  intro l
  induction l with
  | nil =>
    intro e h
    rw [collectEdges] at h
    exact Except.noConfusion h
  | cons op rest ih =>
    intro e h
    rw [collectEdges] at h
    cases hdep : depEdges names op.name (sortNames op.depends_on) with
    | error e' =>
      rw [hdep] at h
      obtain rfl : e' = e := by simpa using h
      obtain ⟨d, he, hd, hc⟩ := depEdges_error hdep
      exact ⟨op, d, List.mem_cons_self _ _, he, mem_sortNames.mp hd, hc⟩
    | ok es1 =>
      rw [hdep] at h
      cases hrec : collectEdges names rest with
      | error e' =>
        rw [hrec] at h
        obtain rfl : e' = e := by simpa using h
        obtain ⟨op', d, hop', he, hd, hc⟩ := ih hrec
        exact ⟨op', d, List.mem_cons_of_mem _ hop', he, hd, hc⟩
      | ok es2 =>
        rw [hrec] at h
        exact Except.noConfusion h

theorem collectEdges_ok_of_resolved {names : List String} :
    ∀ {l : List Operation},
      (∀ op ∈ l, ∀ d ∈ op.depends_on, names.contains d = true) →
      ∃ es, collectEdges names l = .ok es := by
  intro l
  induction l with
  | nil => exact fun _ => ⟨[], rfl⟩
  | cons op rest ih =>
    intro hres
    cases hdep : depEdges names op.name (sortNames op.depends_on) with
    | error e =>
      obtain ⟨d, _, hd, hc⟩ := depEdges_error hdep
      rw [hres op (List.mem_cons_self _ _) d (mem_sortNames.mp hd)] at hc
      exact Bool.noConfusion hc
    | ok es1 =>
      obtain ⟨es2, hrec⟩ := ih (fun o ho => hres o (List.mem_cons_of_mem _ ho))
      exact ⟨es1 ++ es2, by rw [collectEdges, hdep, hrec]⟩

/-- Unpack a successful `Dag.graphBuild`. -/
theorem graphBuild_ok_elim {ops : List Operation} {g : Graph}
    (h : Dag.graphBuild ops = .ok g) :
    collectEdges (ops.map (fun o => o.name)) (sortBy (fun o => o.name) ops)
        = .ok g.edges ∧
      g.nodes = sortNames (ops.map (fun o => o.name)) ∧
      is_directed_acyclic_graph ops g = true := by
  simp only [Dag.graphBuild] at h
  cases hce : collectEdges (ops.map (fun o => o.name)) (sortBy (fun o => o.name) ops) with
  | error e =>
    rw [hce] at h
    exact Except.noConfusion h
  | ok es =>
    rw [hce] at h
    dsimp only at h
    by_cases hdag : is_directed_acyclic_graph ops ⟨sortNames (ops.map (fun o => o.name)), es⟩ = true
    · rw [if_pos hdag] at h
      obtain rfl : (⟨sortNames (ops.map (fun o => o.name)), es⟩ : Graph) = g := by
        simpa using h
      exact ⟨rfl, rfl, hdag⟩
    · rw [if_neg hdag] at h
      exact Except.noConfusion h

/-- In a built graph, both endpoints of every edge are nodes. -/
theorem graphBuild_wf {ops : List Operation} {g : Graph}
    (h : Dag.graphBuild ops = .ok g) :
    ∀ e ∈ g.edges, e.1 ∈ g.nodes ∧ e.2 ∈ g.nodes := by
  obtain ⟨hce, hnodes, _⟩ := graphBuild_ok_elim h
  intro e he
  obtain ⟨op, hop, hn, _⟩ :=
    (collectEdges_ok_mem hce e.1 e.2).mp (Prod.mk.eta ▸ he)
  have h1 : e.1 ∈ ops.map (fun o => o.name) :=
    List.elem_iff.mp (collectEdges_ok_contains hce e.1 e.2 (Prod.mk.eta ▸ he))
  have h2 : e.2 ∈ ops.map (fun o => o.name) :=
    hn ▸ List.mem_map_of_mem (fun o => o.name) (mem_sortBy.mp hop)
  rw [hnodes]
  exact ⟨mem_sortNames.mpr h1, mem_sortNames.mpr h2⟩

/-- The subgraph induced on all nodes of a well-formed graph is the graph
itself. -/
theorem subgraph_self {g : Graph}
    (hwf : ∀ e ∈ g.edges, e.1 ∈ g.nodes ∧ e.2 ∈ g.nodes) :
    g.subgraph g.nodes = g := by
  cases g with
  | mk nodes edges =>
    simp only [Graph.subgraph, Graph.mk.injEq]
    constructor
    · exact List.filter_eq_self.mpr (fun a ha => List.elem_iff.mpr ha)
    · refine List.filter_eq_self.mpr (fun e he => ?_)
      obtain ⟨h1, h2⟩ := hwf e he
      simp only [Bool.and_eq_true]
      exact ⟨List.elem_iff.mpr h1, List.elem_iff.mpr h2⟩

/-- `Dag.get_all_operations` is exactly the Kahn run over the graph. -/
theorem get_all_operations_eq_kahnRun {ops : List Operation} {g : Graph}
    (hwf : ∀ e ∈ g.edges, e.1 ∈ g.nodes ∧ e.2 ∈ g.nodes) :
    Dag.get_all_operations ops g = kahnRun (custom_key ops) g := by
  unfold Dag.get_all_operations Dag.topological_sort
  by_cases hnil : g.nodes.isEmpty
  · rw [if_pos hnil]
  · rw [if_neg hnil, subgraph_self hwf]

/-! ### The tie-break key is injective -/

theorem servicePriority_le (s : String) : servicePriority s ≤ 99 := by
  unfold servicePriority
  cases h : SERVICE_PRIORITY.find? (fun p => p.1 == s) with
  | none => decide
  | some p =>
    have hm := List.mem_of_find?_eq_some h
    simp only [SERVICE_PRIORITY, List.mem_cons, List.not_mem_nil, or_false] at hm
    rcases hm with rfl | rfl | rfl | rfl | rfl | rfl | rfl | rfl | rfl | rfl | rfl <;> decide

theorem format02_data {p : Nat} (hp : p < 100) :
    (format02 p).data = [digitChar10 (p / 10), digitChar10 (p % 10)] := by
  rw [format02, if_pos hp]

theorem custom_key_data (ops : List Operation) (node : String) :
    ∃ p ≤ 99, (custom_key ops node).data
      = digitChar10 (p / 10) :: digitChar10 (p % 10) :: '_' :: node.data := by
  unfold custom_key
  cases hf : findOperation ops node with
  | some op =>
    refine ⟨servicePriority op.service, servicePriority_le _, ?_⟩
    simp [String.data_append, format02_data (lt_of_le_of_lt (servicePriority_le _) (by norm_num))]
  | none =>
    refine ⟨DEFAULT_SERVICE_PRIORITY, le_refl _, ?_⟩
    simp [String.data_append, format02_data (by decide : DEFAULT_SERVICE_PRIORITY < 100)]

theorem custom_key_data_of_find {ops : List Operation} {node : String}
    {op : Operation} (hf : findOperation ops node = some op) :
    (custom_key ops node).data
      = digitChar10 (servicePriority op.service / 10)
        :: digitChar10 (servicePriority op.service % 10) :: '_' :: node.data := by
  unfold custom_key
  rw [hf]
  simp [String.data_append, format02_data (lt_of_le_of_lt (servicePriority_le _) (by norm_num))]

theorem custom_key_inj (ops : List Operation) :
    ∀ x y, custom_key ops x = custom_key ops y → x = y := by
  intro x y h
  obtain ⟨p, _, hx⟩ := custom_key_data ops x
  obtain ⟨q, _, hy⟩ := custom_key_data ops y
  have hd := congrArg String.data h
  rw [hx, hy] at hd
  simp only [List.cons.injEq] at hd
  exact String.ext hd.2.2.2

/-! ### Completeness of the sort below a topological position function -/

theorem exists_min_pos {l : List String} (h : l ≠ []) (pos : String → Nat) :
    ∃ m ∈ l, ∀ y ∈ l, pos m ≤ pos y := by
  induction l with
  | nil => exact absurd rfl h
  | cons x xs ih =>
    by_cases hxs : xs = []
    · subst hxs
      exact ⟨x, List.mem_cons_self _ _, fun y hy =>
        le_of_eq (congrArg pos (List.mem_singleton.mp hy)).symm⟩
    · obtain ⟨m, hm, hmin⟩ := ih hxs
      by_cases hxm : pos x ≤ pos m
      · refine ⟨x, List.mem_cons_self _ _, fun y hy => ?_⟩
        rcases List.mem_cons.mp hy with rfl | hy'
        · exact le_refl _
        · exact le_trans hxm (hmin y hy')
      · refine ⟨m, List.mem_cons_of_mem _ hm, fun y hy => ?_⟩
        rcases List.mem_cons.mp hy with rfl | hy'
        · exact le_of_lt (lt_of_not_le hxm)
        · exact hmin y hy'

theorem kahnAux_complete_of_pos {key : String → String}
    {edges : List (String × String)} (pos : String → Nat)
    (hpos : ∀ e ∈ edges, pos e.1 < pos e.2) :
    ∀ {n : Nat} {remaining : List String}, n = remaining.length →
      (kahnAux key edges n remaining).length = n := by
  intro n
  induction n with
  | zero => intro remaining _; rw [kahnAux]; rfl
  | succ k ih =>
    intro remaining hlen
    have hne : remaining ≠ [] := by
      intro hc
      rw [hc] at hlen
      exact Nat.succ_ne_zero k hlen
    obtain ⟨m0, hm0, hmin⟩ := exists_min_pos hne pos
    have hav : m0 ∈ availableNodes edges remaining :=
      mem_availableNodes.mpr ⟨hm0, fun u hu hedge =>
        absurd (hpos (u, m0) hedge) (not_lt.mpr (hmin u hu))⟩
    cases hmin2 : minKeyNode key (availableNodes edges remaining) with
    | none =>
      exact absurd (minKeyNode_eq_none.mp hmin2) (List.ne_nil_of_mem hav)
    | some m =>
      rw [kahnAux_succ_some hmin2, List.length_cons]
      have hm : m ∈ remaining := (mem_availableNodes.mp (minKeyNode_mem hmin2)).1
      rw [ih (by rw [List.length_erase_of_mem hm]; omega)]

/-! ### The total order is a topological order (claim C1 machinery) -/

theorem is_dag_length {ops : List Operation} {g : Graph}
    (h : is_directed_acyclic_graph ops g = true) :
    (kahnRun (custom_key ops) g).length = g.nodes.length := by
  simpa [is_directed_acyclic_graph] using h

theorem graph_edge_index_lt {ops : List Operation} {g : Graph}
    (hg : Dag.graphBuild ops = .ok g) {u v : String}
    (hedge : (u, v) ∈ g.edges) :
    List.indexOf u (Dag.get_all_operations ops g)
      < List.indexOf v (Dag.get_all_operations ops g) := by
  obtain ⟨_, _, hdag⟩ := graphBuild_ok_elim hg
  have hwf := graphBuild_wf hg
  have hga := @get_all_operations_eq_kahnRun ops g hwf
  have hcomp := is_dag_length hdag
  have hperm : (kahnRun (custom_key ops) g).Perm g.nodes := kahnAux_perm rfl hcomp
  have hv : v ∈ kahnRun (custom_key ops) g := hperm.mem_iff.mpr (hwf _ hedge).2
  obtain ⟨s, t, hsplit, hns⟩ := first_split hv
  have hu : u ∈ s := kahnAux_before hedge (hwf _ hedge).1 hsplit
  rw [hga, hsplit, indexOf_first_occurrence hns t]
  exact indexOf_lt_of_mem_left hu _

/-- C1: For every successfully built graph, the sequence returned by the
total-order query (`get_all_operations`, a topological sort over the whole
graph) is a valid topological order: for every edge dependency → dependent,
the index of the dependency in the returned sequence is strictly less than
the index of the dependent. -/
theorem c1_total_order_is_topological (ops : List Operation) (g : Graph)
    (hg : Dag.graphBuild ops = .ok g) (u v : String)
    (hedge : (u, v) ∈ g.edges) :
    List.indexOf u (Dag.get_all_operations ops g)
      < List.indexOf v (Dag.get_all_operations ops g) :=
  graph_edge_index_lt hg hedge

theorem c1_total_order_is_topological_witness :
    Dag.graphBuild c1ops = .ok c1graph ∧
      ("a_install", "a_config") ∈ c1graph.edges ∧
      List.indexOf "a_install" (Dag.get_all_operations c1ops c1graph)
        < List.indexOf "a_config" (Dag.get_all_operations c1ops c1graph) :=
  ⟨rfl, by decide,
    c1_total_order_is_topological c1ops c1graph rfl "a_install" "a_config"
      (by decide)⟩

/-- C9: For every input sequence of operation names and every regex pattern,
the regex filter returns the order-preserving subsequence of names for which
the regex matches starting at the beginning of the name, without requiring
the match to consume the whole name; no name is re-sorted, added, or
duplicated. -/
theorem c9_regex_filter_prefix_subsequence (operations : List String)
    (regex : RegularExpression Char) :
    (filter_operations_regex operations regex).Sublist operations ∧
    ∀ s, s ∈ filter_operations_regex operations regex ↔
      s ∈ operations ∧ ∃ p, p <+: s.data ∧ p ∈ regex.matches' := by
  refine ⟨List.filter_sublist _, fun s => ?_⟩
  rw [filter_operations_regex, List.mem_filter]
  simp [List.any_eq_true, List.mem_inits, RegularExpression.rmatch_iff_matches']

/-- C10: When `get_operations` is called with both a non-empty sources set
and a non-empty targets set, the result equals the descendant-closure query
for the sources alone (targets silently ignored); with both absent or
empty, the result is the full total order. -/
theorem c10_get_operations_sources_win (ops : List Operation) (g : Graph)
    (sources targets : List String) (hs : sources ≠ []) (_ht : targets ≠ []) :
    Dag.get_operations ops g sources targets
        = Dag.get_operations_from_nodes ops g sources ∧
      Dag.get_operations ops g [] [] = Dag.get_all_operations ops g := by
  refine ⟨?_, rfl⟩
  have h1 : (!sources.isEmpty) = true := by
    cases sources with
    | nil => exact absurd rfl hs
    | cons a l => rfl
  unfold Dag.get_operations
  rw [if_pos h1]

theorem c10_get_operations_sources_win_witness :
    (["a_install"] : List String) ≠ [] ∧ (["a_config"] : List String) ≠ [] ∧
      (Dag.get_operations c1ops c1graph ["a_install"] ["a_config"]
          = Dag.get_operations_from_nodes c1ops c1graph ["a_install"] ∧
        Dag.get_operations c1ops c1graph [] [] = Dag.get_all_operations c1ops c1graph) :=
  ⟨by decide, by decide,
    c10_get_operations_sources_win c1ops c1graph ["a_install"] ["a_config"]
      (by decide) (by decide)⟩

/-- C7: Mutating the source-set input (the `collections` setter) clears the
merged-operations cache, which transitively clears the graph cache, the
service-index cache and the service-list cache; the resulting state is
exactly a freshly constructed instance over the new collections, so no
subsequent read can observe a derived structure computed from the previous
operation set. -/
theorem c7_setCollections_clears_caches (s : DagState)
    (collections : List Collection) :
    Dag.setCollections s collections = Dag.init collections ∧
    (Dag.setCollections s collections)._operations = none ∧
    (Dag.setCollections s collections)._graph = none ∧
    (Dag.setCollections s collections)._services_operations = none ∧
    (Dag.setCollections s collections)._services = none ∧
    Dag.operationsGet (Dag.setCollections s collections)
      = Dag.operationsGet (Dag.init collections) ∧
    Dag.graphGet (Dag.setCollections s collections)
      = Dag.graphGet (Dag.init collections) := by
  have h : Dag.setCollections s collections = Dag.init collections := by
    cases s
    rfl
  refine ⟨h, ?_, ?_, ?_, ?_, congrArg Dag.operationsGet h, congrArg Dag.graphGet h⟩ <;>
    rw [h] <;> rfl

/-- C3: For every merged operation set in which some operation's
`depends_on` contains a name not present in the merged set, graph
construction fails with an `UnknownDependencyError` naming both the
dependent operation and the missing dependency name, and no graph is
exposed. -/
theorem c3_unknown_dependency_fails (ops : List Operation)
    (h : ∃ op ∈ ops, ∃ d ∈ op.depends_on, d ∉ ops.map (fun o => o.name)) :
    ∃ o d, Dag.graphBuild ops = .error (.unknownDependency o d) ∧
      (∃ op ∈ ops, op.name = o ∧ d ∈ op.depends_on) ∧
      d ∉ ops.map (fun o => o.name) := by
  obtain ⟨op0, hop0, d0, hd0, hnm0⟩ := h
  cases hce : collectEdges (ops.map (fun o => o.name)) (sortBy (fun o => o.name) ops) with
  | ok es =>
    have hmem : (d0, op0.name) ∈ es :=
      (collectEdges_ok_mem hce d0 op0.name).mpr
        ⟨op0, mem_sortBy.mpr hop0, rfl, mem_sortNames.mpr hd0⟩
    have hcont := collectEdges_ok_contains hce d0 op0.name hmem
    exact absurd (List.elem_iff.mp hcont) hnm0
  | error e =>
    obtain ⟨op, d, hop, he, hd, hc⟩ := collectEdges_error hce
    refine ⟨op.name, d, ?_, ⟨op, mem_sortBy.mp hop, rfl, hd⟩, ?_⟩
    · simp only [Dag.graphBuild]
      rw [hce]
      dsimp only
      rw [he]
    · intro hmem
      have hcont : (ops.map (fun o => o.name)).contains d = true :=
        List.elem_iff.mpr hmem
      rw [hc] at hcont
      exact Bool.noConfusion hcont

theorem c3_unknown_dependency_fails_witness :
    (∃ op ∈ c3ops, ∃ d ∈ op.depends_on, d ∉ c3ops.map (fun o => o.name)) ∧
      (∃ o d, Dag.graphBuild c3ops = .error (.unknownDependency o d) ∧
        (∃ op ∈ c3ops, op.name = o ∧ d ∈ op.depends_on) ∧
        d ∉ c3ops.map (fun o => o.name)) :=
  ⟨by decide, c3_unknown_dependency_fails c3ops (by decide)⟩

/-! ### Lemmas about the merge (claim C6 machinery) -/

theorem filter_name_eq_singleton {acc : List Operation} {a : Operation} {n : String}
    (hnd : (acc.map (fun o => o.name)).Nodup) (ha : a ∈ acc) (hn : a.name = n) :
    acc.filter (fun o => o.name == n) = [a] := by
  induction acc with
  | nil => exact absurd ha (List.not_mem_nil a)
  | cons x xs ih =>
    rw [List.map_cons, List.nodup_cons] at hnd
    obtain ⟨hx, hnd'⟩ := hnd
    by_cases hxn : (x.name == n) = true
    · have hxname : x.name = n := beq_iff_eq.mp hxn
      have hax : a = x := by
        rcases List.mem_cons.mp ha with rfl | ha'
        · rfl
        · exfalso
          apply hx
          have hmm : a.name ∈ xs.map (fun o => o.name) :=
            List.mem_map_of_mem _ ha'
          rwa [hn, ← hxname] at hmm
      subst hax
      rw [List.filter_cons, if_pos hxn]
      have hrest : xs.filter (fun o => o.name == n) = [] := by
        refine List.filter_eq_nil_iff.mpr (fun y hy hyc => ?_)
        apply hx
        have hmm : y.name ∈ xs.map (fun o => o.name) :=
          List.mem_map_of_mem _ hy
        rwa [beq_iff_eq.mp hyc, ← hxname] at hmm
      rw [hrest]
    · have hax : a ≠ x := fun hc => hxn (beq_iff_eq.mpr (hc ▸ hn))
      rw [List.filter_cons, if_neg hxn]
      exact ih hnd' (List.mem_of_ne_of_mem hax ha)

theorem findOperation_some {ops : List Operation} {n : String} {op : Operation}
    (h : findOperation ops n = some op) : op ∈ ops ∧ op.name = n := by
  unfold findOperation at h
  have h2 := List.find?_some h
  simp only [beq_iff_eq] at h2
  exact ⟨List.mem_of_find?_eq_some h, h2⟩

theorem mergeList_ok_nodup :
    ∀ {l : List (String × RawOperation)} {acc : List Operation}
      {res : List Operation},
      mergeList acc l = .ok res →
      (acc.map (fun o => o.name)).Nodup →
      ((acc.map (fun o => o.name)) ++ l.map (fun p => p.2.name)).Nodup := by
  intro l
  induction l with
  | nil =>
    intro acc res _ hnd
    simpa using hnd
  | cons p rest ih =>
    intro acc res h hnd
    obtain ⟨cname, raw⟩ := p
    rw [mergeList] at h
    cases hf : findOperation acc raw.name with
    | some first =>
      rw [hf] at h
      exact Except.noConfusion h
    | none =>
      rw [hf] at h
      have hnotin : raw.name ∉ acc.map (fun o => o.name) := by
        intro hmem
        obtain ⟨o, ho, hon⟩ := List.mem_map.mp hmem
        exact List.find?_eq_none.mp hf o ho (beq_iff_eq.mpr hon)
      have hnd' : ((acc ++ [mkOperation cname raw]).map (fun o => o.name)).Nodup := by
        rw [List.map_append]
        rw [List.nodup_append]
        refine ⟨hnd, List.nodup_singleton _, fun a haa hab => ?_⟩
        rw [List.mem_singleton.mp hab] at haa
        exact hnotin haa
      have hres := ih h hnd'
      rw [List.map_append] at hres
      simpa [List.append_assoc] using hres

theorem mergeList_error_shape :
    ∀ {l : List (String × RawOperation)} {acc : List Operation} {e : DagError},
      mergeList acc l = .error e →
      ∃ n c1 c2, e = .duplicateOperation n c1 c2 := by
  intro l
  induction l with
  | nil =>
    intro acc e h
    rw [mergeList] at h
    exact Except.noConfusion h
  | cons p rest ih =>
    intro acc e h
    obtain ⟨cname, raw⟩ := p
    rw [mergeList] at h
    cases hf : findOperation acc raw.name with
    | some first =>
      rw [hf] at h
      obtain rfl : DagError.duplicateOperation raw.name first.collection_name cname = e := by
        simpa using h
      exact ⟨raw.name, first.collection_name, cname, rfl⟩
    | none =>
      rw [hf] at h
      exact ih h

theorem mergeList_error_spec :
    ∀ {l : List (String × RawOperation)} {acc : List Operation} {n c1 c2 : String},
      mergeList acc l = .error (.duplicateOperation n c1 c2) →
      (acc.map (fun o => o.name)).Nodup →
      (((acc.filter (fun o => o.name == n)).map (fun o => o.collection_name))
          ++ ((l.filter (fun p => p.2.name == n)).map (fun p => p.1))).take 2
        = [c1, c2] := by
  intro l
  induction l with
  | nil =>
    intro acc n c1 c2 h _
    rw [mergeList] at h
    exact Except.noConfusion h
  | cons p rest ih =>
    intro acc n c1 c2 h hnd
    obtain ⟨cname, raw⟩ := p
    rw [mergeList] at h
    cases hf : findOperation acc raw.name with
    | some first =>
      rw [hf] at h
      simp only [Except.error.injEq, DagError.duplicateOperation.injEq] at h
      obtain ⟨rfl, rfl, rfl⟩ := h
      have hfirst : acc.filter (fun o => o.name == raw.name) = [first] :=
        filter_name_eq_singleton hnd (findOperation_some hf).1 (findOperation_some hf).2
      rw [hfirst, List.filter_cons]
      simp
    | none =>
      rw [hf] at h
      have hnotin : raw.name ∉ acc.map (fun o => o.name) := by
        intro hmem
        obtain ⟨o, ho, hon⟩ := List.mem_map.mp hmem
        exact List.find?_eq_none.mp hf o ho (beq_iff_eq.mpr hon)
      have hnd' : ((acc ++ [mkOperation cname raw]).map (fun o => o.name)).Nodup := by
        rw [List.map_append, List.nodup_append]
        refine ⟨hnd, List.nodup_singleton _, fun a haa hab => ?_⟩
        rw [List.mem_singleton.mp hab] at haa
        exact hnotin haa
      have hres := ih h hnd'
      by_cases hrn : (raw.name == n) = true
      · rw [List.filter_append, List.filter_cons] at hres
        rw [List.filter_cons]
        simp only [mkOperation, hrn, if_pos] at hres ⊢
        simpa [List.append_assoc] using hres
      · rw [List.filter_append, List.filter_cons] at hres
        rw [List.filter_cons]
        simp only [mkOperation, hrn, if_neg, Bool.false_eq_true, not_false_eq_true] at hres ⊢
        simpa using hres

/-- C6: For every ordered sequence of sources in which the same operation
name is declared twice (in particular, by two sources), merging fails with a
`DuplicateOperationError` naming the duplicated name's two declaring
sources, the first-seen source first and the offending source second; no
shadowing or override occurs (no merged set is produced). -/
theorem c6_duplicate_declaration_fails (collections : List Collection)
    (hdup : ¬ ((flattenDecls collections).map (fun p => p.2.name)).Nodup) :
    ∃ n c1 c2,
      Dag.operationsBuild collections = .error (.duplicateOperation n c1 c2) ∧
      (((flattenDecls collections).filter (fun p => p.2.name == n)).map
          (fun p => p.1)).take 2 = [c1, c2] := by
  cases hm : mergeList [] (flattenDecls collections) with
  | ok res =>
    exact absurd (by simpa using mergeList_ok_nodup hm (by simp)) hdup
  | error e =>
    obtain ⟨n, c1, c2, rfl⟩ := mergeList_error_shape hm
    refine ⟨n, c1, c2, hm, ?_⟩
    have hspec := mergeList_error_spec hm (by simp)
    simpa using hspec

theorem c6_duplicate_declaration_fails_witness :
    (¬ ((flattenDecls c6collections).map (fun p => p.2.name)).Nodup) ∧
      (∃ n c1 c2,
        Dag.operationsBuild c6collections = .error (.duplicateOperation n c1 c2) ∧
        (((flattenDecls c6collections).filter (fun p => p.2.name == n)).map
            (fun p => p.1)).take 2 = [c1, c2]) :=
  ⟨by decide, c6_duplicate_declaration_fails c6collections (by decide)⟩

/-! ### Cycles (claim C5 machinery) -/

theorem transGen_head_exists {α : Type _} {r : α → α → Prop} {a b : α}
    (h : Relation.TransGen r a b) : ∃ c, r a c := by
  induction h with
  | single h => exact ⟨_, h⟩
  | tail _ _ ih => exact ih

theorem transGen_index_lt {ops : List Operation} {g : Graph}
    (hg : Dag.graphBuild ops = .ok g) {a b : String}
    (h : Relation.TransGen (EdgeRel g) a b) :
    List.indexOf a (Dag.get_all_operations ops g)
      < List.indexOf b (Dag.get_all_operations ops g) := by
  induction h with
  | single h1 => exact graph_edge_index_lt hg h1
  | tail _ h2 ih => exact lt_trans ih (graph_edge_index_lt hg h2)

/-- C5: For every merged operation set whose induced dependency graph
(which exists when every dependency resolves) contains a directed cycle,
graph construction fails with the `CyclicGraphError` (`"Not a DAG"`); the
acyclicity check is part of every run of the graph builder, so no cyclic
graph is ever returned. -/
theorem c5_cyclic_graph_fails (ops : List Operation)
    (hres : ∀ op ∈ ops, ∀ d ∈ op.depends_on, d ∈ ops.map (fun o => o.name))
    (hcyc : ∃ v, Relation.TransGen
      (fun a b => ∃ op ∈ ops, op.name = b ∧ a ∈ op.depends_on) v v) :
    Dag.graphBuild ops = .error .notADag := by
  obtain ⟨es, hce⟩ := collectEdges_ok_of_resolved
    (fun op hop d hd => List.elem_iff.mpr (hres op (mem_sortBy.mp hop) d hd))
  by_cases hdag : is_directed_acyclic_graph ops
      ⟨sortNames (ops.map (fun o => o.name)), es⟩ = true
  · exfalso
    have hg : Dag.graphBuild ops
        = .ok ⟨sortNames (ops.map (fun o => o.name)), es⟩ := by
      simp only [Dag.graphBuild]
      rw [hce]
      dsimp only
      rw [if_pos hdag]
    obtain ⟨v, hv⟩ := hcyc
    have hconv : Relation.TransGen
        (EdgeRel ⟨sortNames (ops.map (fun o => o.name)), es⟩) v v := by
      refine Relation.TransGen.mono ?_ hv
      rintro a b ⟨op, hop, rfl, hd⟩
      exact (collectEdges_ok_mem hce a op.name).mpr
        ⟨op, mem_sortBy.mpr hop, rfl, mem_sortNames.mpr hd⟩
    exact lt_irrefl _ (transGen_index_lt hg hconv)
  · simp only [Dag.graphBuild]
    rw [hce]
    dsimp only
    rw [if_neg hdag]

theorem c5_cyclic_graph_fails_witness :
    (∀ op ∈ c5ops, ∀ d ∈ op.depends_on, d ∈ c5ops.map (fun o => o.name)) ∧
      (∃ v, Relation.TransGen
        (fun a b => ∃ op ∈ c5ops, op.name = b ∧ a ∈ op.depends_on)
        v v) ∧
      Dag.graphBuild c5ops = .error .notADag := by
  have h1 : ∃ op ∈ c5ops, op.name = "b_install" ∧ "a_install" ∈ op.depends_on :=
    ⟨{ name := "b_install", depends_on := ["a_install"],
       collection_name := "core", noop := false }, by decide, rfl, by decide⟩
  have h2 : ∃ op ∈ c5ops, op.name = "a_install" ∧ "b_install" ∈ op.depends_on :=
    ⟨{ name := "a_install", depends_on := ["b_install"],
       collection_name := "core", noop := false }, by decide, rfl, by decide⟩
  have hcyc : ∃ v, Relation.TransGen
      (fun a b => ∃ op ∈ c5ops, op.name = b ∧ a ∈ op.depends_on) v v :=
    ⟨"a_install", Relation.TransGen.tail (Relation.TransGen.single h1) h2⟩
  exact ⟨by decide, hcyc, c5_cyclic_graph_fails c5ops (by decide) hcyc⟩

/-! ### Priority comparison of keys (claim C2 machinery) -/

theorem digitChar10_lt {a b : Nat} (ha : a ≤ 9) (hb : b ≤ 9) (hab : a < b) :
    digitChar10 a < digitChar10 b := by
  have hfin : ∀ x y : Fin 10, x.val < y.val → digitChar10 x.val < digitChar10 y.val := by
    decide
  exact hfin ⟨a, by omega⟩ ⟨b, by omega⟩ hab

theorem charListLt_two_digits {p q : Nat} (hpq : p < q) (hq : q ≤ 99)
    (l1 l2 : List Char) :
    charListLt (digitChar10 (p / 10) :: digitChar10 (p % 10) :: l1)
      (digitChar10 (q / 10) :: digitChar10 (q % 10) :: l2) = true := by
  have hdiv : p / 10 < q / 10 ∨ (p / 10 = q / 10 ∧ p % 10 < q % 10) := by omega
  rcases hdiv with h | ⟨heq, hmod⟩
  · have hlt : digitChar10 (p / 10) < digitChar10 (q / 10) :=
      digitChar10_lt (by omega) (by omega) h
    simp [charListLt, hlt]
  · have hlt : digitChar10 (p % 10) < digitChar10 (q % 10) :=
      digitChar10_lt (by omega) (by omega) hmod
    rw [heq]
    simp [charListLt, hlt]

theorem custom_key_lt_of_priority_lt {ops : List Operation} {u v : String}
    {opu opv : Operation} (hfu : findOperation ops u = some opu)
    (hfv : findOperation ops v = some opv)
    (hp : servicePriority opu.service < servicePriority opv.service) :
    strLt (custom_key ops u) (custom_key ops v) = true := by
  unfold strLt
  rw [custom_key_data_of_find hfu, custom_key_data_of_find hfv]
  exact charListLt_two_digits hp (servicePriority_le _) _ _

/-- A node with no incoming edge at all is available whenever it remains, so
any node with a strictly larger key can only be emitted after it. -/
theorem kahnAux_before_min {key : String → String}
    {edges : List (String × String)} {u v : String}
    (hnoin : ∀ x, (x, u) ∉ edges) (hkey : strLt (key u) (key v) = true) :
    ∀ {fuel : Nat} {remaining : List String} {l1 l2 : List String},
      u ∈ remaining → kahnAux key edges fuel remaining = l1 ++ v :: l2 →
      u ∈ l1 := by
  intro fuel
  induction fuel with
  | zero =>
    intro remaining l1 l2 _ heq
    rw [kahnAux] at heq
    exact absurd heq (by simp)
  | succ n ih =>
    intro remaining l1 l2 hu heq
    cases hmin : minKeyNode key (availableNodes edges remaining) with
    | none =>
      rw [kahnAux_succ_none hmin] at heq
      exact absurd heq (by simp)
    | some m =>
      rw [kahnAux_succ_some hmin] at heq
      cases l1 with
      | nil =>
        simp only [List.nil_append, List.cons.injEq] at heq
        obtain ⟨rfl, _⟩ := heq
        have huav : u ∈ availableNodes edges remaining :=
          mem_availableNodes.mpr ⟨hu, fun x _ => hnoin x⟩
        have hmu := minKeyNode_min hmin u huav
        rw [hkey] at hmu
        exact Bool.noConfusion hmu
      | cons a l1' =>
        simp only [List.cons_append, List.cons.injEq] at heq
        obtain ⟨rfl, heq'⟩ := heq
        by_cases hum : u = m
        · exact hum ▸ List.mem_cons_self _ _
        · exact List.mem_cons_of_mem _
            (ih (List.mem_erase_of_ne hum |>.mpr hu) heq')

/-- C2 (amended): for two operations with no directed path between them
where additionally the lower-priority one has no incoming dependency edge
at all, a strictly smaller service priority forces the earlier position in
the total order, regardless of the alphabetical order of the names. -/
theorem c2_priority_tiebreak_for_sources (ops : List Operation) (g : Graph)
    (hg : Dag.graphBuild ops = .ok g) (u v : String) (opu opv : Operation)
    (hu : u ∈ g.nodes) (hv : v ∈ g.nodes)
    (hfu : findOperation ops u = some opu)
    (hfv : findOperation ops v = some opv)
    (hnu : ∀ x, (x, u) ∉ g.edges)
    (_hnp1 : ¬ Relation.TransGen (EdgeRel g) u v)
    (_hnp2 : ¬ Relation.TransGen (EdgeRel g) v u)
    (hp : servicePriority opu.service < servicePriority opv.service) :
    List.indexOf u (Dag.get_all_operations ops g)
      < List.indexOf v (Dag.get_all_operations ops g) := by
  obtain ⟨_, _, hdag⟩ := graphBuild_ok_elim hg
  have hwf := graphBuild_wf hg
  have hga := @get_all_operations_eq_kahnRun ops g hwf
  have hcomp := is_dag_length hdag
  have hperm : (kahnRun (custom_key ops) g).Perm g.nodes := kahnAux_perm rfl hcomp
  have hvL : v ∈ kahnRun (custom_key ops) g := hperm.mem_iff.mpr hv
  obtain ⟨s, t, hsplit, hns⟩ := first_split hvL
  have huS : u ∈ s :=
    kahnAux_before_min hnu (custom_key_lt_of_priority_lt hfu hfv hp) hu hsplit
  rw [hga, hsplit, indexOf_first_occurrence hns t]
  exact indexOf_lt_of_mem_left huS _

theorem c2_priority_tiebreak_for_sources_witness :
    Dag.graphBuild c2wOps = .ok c2wGraph ∧
      "exporter_install" ∈ c2wGraph.nodes ∧ "zookeeper_install" ∈ c2wGraph.nodes ∧
      findOperation c2wOps "exporter_install" = some c2wOpU ∧
      findOperation c2wOps "zookeeper_install" = some c2wOpV ∧
      (∀ x, (x, "exporter_install") ∉ c2wGraph.edges) ∧
      (¬ Relation.TransGen (EdgeRel c2wGraph) "exporter_install" "zookeeper_install") ∧
      (¬ Relation.TransGen (EdgeRel c2wGraph) "zookeeper_install" "exporter_install") ∧
      servicePriority c2wOpU.service < servicePriority c2wOpV.service ∧
      List.indexOf "exporter_install" (Dag.get_all_operations c2wOps c2wGraph)
        < List.indexOf "zookeeper_install" (Dag.get_all_operations c2wOps c2wGraph) := by
  have hne : ∀ x, (x, "exporter_install") ∉ c2wGraph.edges :=
    fun x => List.not_mem_nil _
  have hnp1 : ¬ Relation.TransGen (EdgeRel c2wGraph) "exporter_install" "zookeeper_install" := by
    intro h
    obtain ⟨c, hc⟩ := transGen_head_exists h
    exact List.not_mem_nil _ hc
  have hnp2 : ¬ Relation.TransGen (EdgeRel c2wGraph) "zookeeper_install" "exporter_install" := by
    intro h
    obtain ⟨c, hc⟩ := transGen_head_exists h
    exact List.not_mem_nil _ hc
  exact ⟨rfl, by decide, by decide, rfl, rfl, hne, hnp1, hnp2, by decide,
    c2_priority_tiebreak_for_sources c2wOps c2wGraph rfl
      "exporter_install" "zookeeper_install" c2wOpU c2wOpV
      (by decide) (by decide) rfl rfl hne hnp1 hnp2 (by decide)⟩

/-- C2 counterexample: in `c2ops`, `exporter_install` (service priority 1)
and `zookeeper_install` (service priority 2) have no directed path between
them, yet the total order places `zookeeper_install` first, because
`exporter_install` is blocked behind its priority-99 dependency.  The claim
as stated is therefore false. -/
theorem c2_priority_tiebreak_counterexample :
    Dag.graphBuild c2ops = .ok c2graph ∧
      findOperation c2ops "exporter_install" = some c2opU ∧
      findOperation c2ops "zookeeper_install" = some c2opV ∧
      (¬ Relation.TransGen (EdgeRel c2graph) "exporter_install" "zookeeper_install") ∧
      (¬ Relation.TransGen (EdgeRel c2graph) "zookeeper_install" "exporter_install") ∧
      servicePriority c2opU.service < servicePriority c2opV.service ∧
      ¬ (List.indexOf "exporter_install" (Dag.get_all_operations c2ops c2graph)
          < List.indexOf "zookeeper_install" (Dag.get_all_operations c2ops c2graph)) := by
  have hnp1 : ¬ Relation.TransGen (EdgeRel c2graph) "exporter_install" "zookeeper_install" := by
    intro h
    obtain ⟨c, hc⟩ := transGen_head_exists h
    simp only [EdgeRel, c2graph, List.mem_singleton, Prod.mk.injEq] at hc
    exact absurd hc.1 (by decide)
  have hnp2 : ¬ Relation.TransGen (EdgeRel c2graph) "zookeeper_install" "exporter_install" := by
    intro h
    obtain ⟨c, hc⟩ := transGen_head_exists h
    simp only [EdgeRel, c2graph, List.mem_singleton, Prod.mk.injEq] at hc
    exact absurd hc.1 (by decide)
  exact ⟨rfl, rfl, rfl, hnp1, hnp2, by decide, by decide⟩

/-! ### Name splitting and the lifecycle rule (claim C8 machinery) -/

theorem underscore_rev_split :
    ∀ r : List Char, '_' ∈ r →
      r.takeWhile (fun c => c ≠ '_') ++ '_' :: (r.dropWhile (fun c => c ≠ '_')).drop 1
        = r := by
  intro r
  induction r with
  | nil => intro h; exact absurd h (List.not_mem_nil _)
  | cons c r' ih =>
    intro h
    by_cases hc : c = '_'
    · subst hc
      simp [List.takeWhile_cons, List.dropWhile_cons]
    · have hm : '_' ∈ r' := List.mem_of_ne_of_mem (fun hx => hc hx.symm) h
      rw [List.takeWhile_cons, List.dropWhile_cons,
        if_pos (by simp [hc] : decide (c ≠ '_') = true),
        if_pos (by simp [hc] : decide (c ≠ '_') = true),
        List.cons_append, ih hm]

theorem name_split_of_underscore {op : Operation}
    (h : op.name.data.contains '_' = true) :
    op.name = op.service ++ "_" ++ op.action := by
  apply String.ext
  rw [String.data_append, String.data_append]
  unfold Operation.service Operation.action
  rw [if_pos h, if_pos h]
  have hm : '_' ∈ op.name.data.reverse :=
    List.mem_reverse.mpr (List.elem_iff.mp h)
  have hsplit := underscore_rev_split op.name.data.reverse hm
  conv_lhs => rw [← List.reverse_reverse op.name.data, ← hsplit]
  simp [List.reverse_append, List.reverse_cons, List.append_assoc]

theorem is_service_of_underscore {op : Operation}
    (h : op.name.data.contains '_' = true) : op.is_service = true := by
  unfold Operation.is_service
  exact beq_iff_eq.mpr (name_split_of_underscore h)

theorem action_underscore {op : Operation} (h : op.action ≠ "") :
    op.name.data.contains '_' = true := by
  by_cases hc : op.name.data.contains '_' = true
  · exact hc
  · exfalso
    apply h
    unfold Operation.action
    rw [if_neg hc]

theorem any_beq_eq_false {l : List String} {x : String} (h : x ∉ l) :
    (l.any fun d => d == x) = false := by
  cases ha : l.any (fun d => d == x) with
  | false => rfl
  | true =>
    obtain ⟨d, hd, hdx⟩ := List.any_eq_true.mp ha
    rw [beq_iff_eq.mp hdx] at hd
    exact absurd hd h

theorem rule5Warnings_eq {op : Operation}
    (hcontains : actions_order.contains op.action = true)
    (hni : (op.action == "install") = false)
    (hmissing : (op.service ++ "_" ++ previousAction op.action) ∉ op.depends_on) :
    rule5Warnings op
      = [.missingPreviousServiceAction op.name op.service (previousAction op.action)] := by
  unfold rule5Warnings
  rw [hcontains, hni]
  simp [any_beq_eq_false hmissing]

theorem validateDeps_ok {ops : List Operation} {op : Operation} :
    ∀ {ds : List String}, (∀ d ∈ ds, (findOperation ops d).isSome = true) →
      ∃ ws, validateDeps ops op ds = .ok ws := by
  intro ds
  induction ds with
  | nil => exact fun _ => ⟨[], rfl⟩
  | cons d ds' ih =>
    intro h
    obtain ⟨depOp, hdo⟩ :=
      Option.isSome_iff_exists.mp (h d (List.mem_cons_self _ _))
    obtain ⟨ws', hws'⟩ := ih (fun x hx => h x (List.mem_cons_of_mem _ hx))
    cases hv : validateDeps ops op (d :: ds') with
    | error e =>
      rw [validateDeps, hdo, hws'] at hv
      exact Except.noConfusion hv
    | ok ws => exact ⟨ws, rfl⟩

theorem validateOpWarnings_ok {collections : List Collection}
    {ops : List Operation} {op : Operation}
    (hdeps : ∀ d ∈ op.depends_on, (findOperation ops d).isSome = true)
    (hcol : (findCollection collections op.collection_name).isSome = true) :
    ∃ depWs pbWs, validateOpWarnings collections ops op
      = .ok (depWs ++ (if op.is_service then rule5Warnings op else []) ++ pbWs) := by
  obtain ⟨depWs, hdw⟩ := validateDeps_ok hdeps
  obtain ⟨c, hc⟩ := Option.isSome_iff_exists.mp hcol
  refine ⟨depWs,
    (if c.operations.contains op.name then
      (if op.noop then [Warning.noopWithPlaybook op.name] else [])
     else
      (if !op.noop then [Warning.missingPlaybook op.name] else [])), ?_⟩
  unfold validateOpWarnings
  rw [hdw, hc]

theorem validateAux_ok {collections : List Collection} {ops : List Operation} :
    ∀ {l : List Operation} {m : List (String × List String)},
      (∀ o ∈ l, ∃ ws, validateOpWarnings collections ops o = .ok ws) →
      ∃ ws m', validateAux collections ops m l = .ok (ws, m') ∧
        ∀ o ∈ l, ∀ ws₀, validateOpWarnings collections ops o = .ok ws₀ →
          ∀ w ∈ ws₀, w ∈ ws := by
  intro l
  induction l with
  | nil =>
    intro m _
    exact ⟨[], m, rfl, fun o ho => absurd ho (List.not_mem_nil o)⟩
  | cons op rest ih =>
    intro m h
    obtain ⟨ws0, hw0⟩ := h op (List.mem_cons_self _ _)
    obtain ⟨ws1, m1, haux, hmem⟩ :=
      ih (m := validateOpMap m op) (fun o ho => h o (List.mem_cons_of_mem _ ho))
    refine ⟨ws0 ++ ws1, m1, ?_, ?_⟩
    · rw [validateAux, hw0, haux]
    · intro o ho ws₀ hws₀ w hw
      rcases List.mem_cons.mp ho with rfl | ho'
      · rw [hw0] at hws₀
        obtain rfl : ws0 = ws₀ := by simpa using hws₀
        exact List.mem_append_left _ hw
      · exact List.mem_append_right _ (hmem o ho' ws₀ hws₀ w hw)

/-- C8: For every operation whose action is a lifecycle action other than
install (config, start or init), if its `depends_on` does not explicitly
contain `{service}_{previous_action}` (previous in the fixed order
install → config → start → init), validation emits a
missing-sequential-lifecycle-dependency warning for that operation, and
validation succeeds regardless (warnings are advisory). -/
theorem c8_missing_lifecycle_dependency_warns (collections : List Collection)
    (ops : List Operation) (op : Operation) (hop : op ∈ ops)
    (hdeps : ∀ o ∈ ops, ∀ d ∈ o.depends_on, (findOperation ops d).isSome = true)
    (hcols : ∀ o ∈ ops, (findCollection collections o.collection_name).isSome = true)
    (haction : op.action = "config" ∨ op.action = "start" ∨ op.action = "init")
    (hmissing : (op.service ++ "_" ++ previousAction op.action) ∉ op.depends_on) :
    ∃ ws, validateRun collections ops = .ok ws ∧
      Warning.missingPreviousServiceAction op.name op.service
        (previousAction op.action) ∈ ws := by
  have hne : op.action ≠ "" := by
    rcases haction with h | h | h <;> rw [h] <;> decide
  have hserv : op.is_service = true :=
    is_service_of_underscore (action_underscore hne)
  have hcont : actions_order.contains op.action = true := by
    rcases haction with h | h | h <;> rw [h] <;> decide
  have hni : (op.action == "install") = false := by
    rcases haction with h | h | h <;> rw [h] <;> decide
  have hr5 := rule5Warnings_eq hcont hni hmissing
  have hallok : ∀ o ∈ ops, ∃ ws, validateOpWarnings collections ops o = .ok ws := by
    intro o ho
    obtain ⟨dws, pws, hok⟩ := validateOpWarnings_ok (hdeps o ho) (hcols o ho)
    exact ⟨_, hok⟩
  obtain ⟨ws, m', haux, hmem⟩ := validateAux_ok (m := []) hallok
  refine ⟨ws ++ part2Warnings m', ?_, ?_⟩
  · unfold validateRun
    rw [haux]
  · apply List.mem_append_left
    obtain ⟨dws, pws, hw⟩ := validateOpWarnings_ok (hdeps op hop) (hcols op hop)
    exact hmem op hop _ hw _ (by simp [hserv, hr5])

theorem c8_missing_lifecycle_dependency_warns_witness :
    ({ name := "svc_config", depends_on := [], collection_name := "core",
       noop := false } : Operation) ∈ c8ops ∧
      (∀ o ∈ c8ops, ∀ d ∈ o.depends_on, (findOperation c8ops d).isSome = true) ∧
      (∀ o ∈ c8ops, (findCollection c8collections o.collection_name).isSome = true) ∧
      Operation.action ⟨"svc_config", [], "core", false⟩ = "config" ∧
      (∃ ws, validateRun c8collections c8ops = .ok ws ∧
        Warning.missingPreviousServiceAction "svc_config" "svc" "install" ∈ ws) := by
  refine ⟨by decide, by decide, by decide, by decide, ?_⟩
  have h := c8_missing_lifecycle_dependency_warns c8collections c8ops
    { name := "svc_config", depends_on := [], collection_name := "core", noop := false }
    (by decide) (by decide) (by decide) (Or.inl (by decide)) (by decide)
  simpa using h

/-! ### Restriction of a Kahn run to a downward-closed node set
(claim C4 machinery) -/

theorem erase_filter_of_neg {l : List String} {a : String} {p : String → Bool}
    (h : p a = false) : (l.erase a).filter p = l.filter p := by
  induction l with
  | nil => rfl
  | cons x xs ih =>
    by_cases hxa : (x == a) = true
    · have hx : x = a := beq_iff_eq.mp hxa
      subst hx
      rw [List.erase_cons_head, List.filter_cons_of_neg (by simp [h])]
    · rw [List.erase_cons_tail hxa]
      by_cases hpx : p x = true
      · rw [List.filter_cons_of_pos hpx, List.filter_cons_of_pos hpx, ih]
      · rw [List.filter_cons_of_neg hpx, List.filter_cons_of_neg hpx, ih]

theorem erase_filter_of_pos {l : List String} {a : String} {p : String → Bool}
    (h : p a = true) : (l.erase a).filter p = (l.filter p).erase a := by
  induction l with
  | nil => rfl
  | cons x xs ih =>
    by_cases hxa : (x == a) = true
    · have hx : x = a := beq_iff_eq.mp hxa
      subst hx
      rw [List.erase_cons_head, List.filter_cons_of_pos h, List.erase_cons_head]
    · rw [List.erase_cons_tail hxa]
      by_cases hpx : p x = true
      · rw [List.filter_cons_of_pos hpx, List.filter_cons_of_pos hpx,
          List.erase_cons_tail hxa, ih]
      · rw [List.filter_cons_of_neg hpx, List.filter_cons_of_neg hpx, ih]

theorem availableNodes_eq_nil {edges : List (String × String)}
    {r : List String} :
    availableNodes edges r = [] ↔ ∀ v ∈ r, ∃ u ∈ r, (u, v) ∈ edges := by
  constructor
  · intro h v hv
    by_contra hc
    push_neg at hc
    have hmem : v ∈ availableNodes edges r := mem_availableNodes.mpr ⟨hv, hc⟩
    rw [h] at hmem
    exact List.not_mem_nil _ hmem
  · intro h
    by_contra hne
    obtain ⟨v, hv⟩ := List.exists_mem_of_ne_nil _ hne
    obtain ⟨hvr, hnone⟩ := mem_availableNodes.mp hv
    obtain ⟨u, hu, hedge⟩ := h v hvr
    exact hnone u hu hedge

theorem kahnAux_nil_of_no_available {key : String → String}
    {edges : List (String × String)} {r : List String}
    (h : availableNodes edges r = []) :
    ∀ fuel, kahnAux key edges fuel r = [] := by
  intro fuel
  cases fuel with
  | zero => rfl
  | succ k =>
    exact kahnAux_succ_none (by rw [h]; rfl)

/-- Restricting a Kahn run to a downward-closed node set commutes with
running Kahn on the induced subgraph: the sub-run is exactly the full run
filtered to the set. -/
theorem kahn_filter_coupling {key : String → String}
    {edges : List (String × String)} (p : String → Bool)
    (hinj : ∀ x y, key x = key y → x = y)
    (hclosed : ∀ u v, (u, v) ∈ edges → p v = true → p u = true) :
    ∀ {n : Nat} {remaining : List String}, n = remaining.length →
      kahnAux key (edges.filter fun e => p e.1 && p e.2)
          (remaining.filter p).length (remaining.filter p)
        = (kahnAux key edges n remaining).filter p := by
  intro n
  induction n with
  | zero =>
    intro remaining hlen
    have hnil : remaining = [] := List.length_eq_zero.mp hlen.symm
    subst hnil
    rfl
  | succ k ih =>
    intro remaining hlen
    cases hmin : minKeyNode key (availableNodes edges remaining) with
    | none =>
      rw [kahnAux_succ_none hmin]
      have hfull : ∀ v ∈ remaining, ∃ u ∈ remaining, (u, v) ∈ edges :=
        availableNodes_eq_nil.mp (minKeyNode_eq_none.mp hmin)
      have hsub : availableNodes (edges.filter fun e => p e.1 && p e.2)
          (remaining.filter p) = [] := by
        refine availableNodes_eq_nil.mpr (fun v hv => ?_)
        obtain ⟨hvr, hvp⟩ := List.mem_filter.mp hv
        obtain ⟨u, hu, hedge⟩ := hfull v hvr
        have hup : p u = true := hclosed u v hedge hvp
        exact ⟨u, List.mem_filter.mpr ⟨hu, hup⟩,
          List.mem_filter.mpr ⟨hedge, by rw [hup, hvp]; rfl⟩⟩
      rw [kahnAux_nil_of_no_available hsub]
      rfl
    | some m =>
      rw [kahnAux_succ_some hmin]
      have hmav := minKeyNode_mem hmin
      obtain ⟨hmr, hmno⟩ := mem_availableNodes.mp hmav
      have hklen : k = (remaining.erase m).length := by
        rw [List.length_erase_of_mem hmr]
        omega
      by_cases hpm : p m = true
      · rw [List.filter_cons_of_pos hpm]
        have hmf : m ∈ remaining.filter p := List.mem_filter.mpr ⟨hmr, hpm⟩
        obtain ⟨j, hj⟩ : ∃ j, (remaining.filter p).length = j + 1 := by
          cases hfl : (remaining.filter p).length with
          | zero =>
            rw [List.length_eq_zero.mp hfl] at hmf
            exact absurd hmf (List.not_mem_nil m)
          | succ j => exact ⟨j, rfl⟩
        rw [hj]
        have hmavs : m ∈ availableNodes (edges.filter fun e => p e.1 && p e.2)
            (remaining.filter p) := by
          refine mem_availableNodes.mpr ⟨hmf, fun u hu hedge => ?_⟩
          obtain ⟨hur, _⟩ := List.mem_filter.mp hu
          obtain ⟨hedge', _⟩ := List.mem_filter.mp hedge
          exact hmno u hur hedge'
        have hsubav : ∀ y ∈ availableNodes (edges.filter fun e => p e.1 && p e.2)
            (remaining.filter p), y ∈ availableNodes edges remaining := by
          intro y hy
          obtain ⟨hyf, hyno⟩ := mem_availableNodes.mp hy
          obtain ⟨hyr, hyp⟩ := List.mem_filter.mp hyf
          refine mem_availableNodes.mpr ⟨hyr, fun u hu hedge => ?_⟩
          have hup : p u = true := hclosed u y hedge hyp
          exact hyno u (List.mem_filter.mpr ⟨hu, hup⟩)
            (List.mem_filter.mpr ⟨hedge, by rw [hup, hyp]; rfl⟩)
        have hminsub : minKeyNode key
            (availableNodes (edges.filter fun e => p e.1 && p e.2)
              (remaining.filter p)) = some m :=
          minKeyNode_eq_some hinj hmavs
            (fun y hy => minKeyNode_min hmin y (hsubav y hy))
        rw [kahnAux_succ_some hminsub]
        have hee : (remaining.filter p).erase m = (remaining.erase m).filter p :=
          (erase_filter_of_pos hpm).symm
        have hjj : j = ((remaining.erase m).filter p).length := by
          rw [← hee]
          have := List.length_erase_of_mem hmf
          omega
        rw [hee, hjj]
        rw [ih hklen]
      · rw [List.filter_cons_of_neg hpm]
        have hee : (remaining.erase m).filter p = remaining.filter p :=
          erase_filter_of_neg (Bool.eq_false_iff.mpr hpm)
        rw [← hee]
        exact ih hklen

/-! ### Saturation computes the ancestor closure -/

theorem saturate_subset (next : List String → List String) :
    ∀ (fuel : Nat) (s : List String), s ⊆ saturate next fuel s := by
  intro fuel
  induction fuel with
  | zero => intro s; exact List.Subset.refl s
  | succ k ih =>
    intro s
    rw [saturate]
    by_cases hnews : (((next s).filter (fun u => !(s.contains u))).dedup).isEmpty = true
    · rw [if_pos hnews]
      exact List.Subset.refl s
    · rw [if_neg hnews]
      exact List.subset_append_left s _ |>.trans (ih _)

theorem saturate_sound {next : List String → List String} (P : String → Prop)
    (hstep : ∀ s, (∀ x ∈ s, P x) → ∀ u ∈ next s, P u) :
    ∀ (fuel : Nat) (s : List String), (∀ x ∈ s, P x) →
      ∀ x ∈ saturate next fuel s, P x := by
  intro fuel
  induction fuel with
  | zero => intro s hs; exact hs
  | succ k ih =>
    intro s hs x hx
    rw [saturate] at hx
    by_cases hnews : (((next s).filter (fun u => !(s.contains u))).dedup).isEmpty = true
    · rw [if_pos hnews] at hx
      exact hs x hx
    · rw [if_neg hnews] at hx
      refine ih (s ++ ((next s).filter (fun u => !(s.contains u))).dedup) ?_ x hx
      intro y hy
      rcases List.mem_append.mp hy with h1 | h2
      · exact hs y h1
      · exact hstep s hs y (List.mem_of_mem_filter (List.mem_dedup.mp h2))

theorem saturate_closed {next : List String → List String}
    (bound : List String)
    (hbound : ∀ s, ∀ u ∈ next s, u ∈ bound) :
    ∀ {fuel : Nat} {s : List String}, s.Nodup → s ⊆ bound →
      bound.length ≤ fuel + s.length →
      ∀ u ∈ next (saturate next fuel s), u ∈ saturate next fuel s := by
  intro fuel
  induction fuel with
  | zero =>
    intro s hnd hsub hlen u hu
    rw [saturate] at hu ⊢
    have hcover : ∀ x ∈ bound, x ∈ s := by
      intro x hx
      have h1 : s.toFinset ⊆ bound.toFinset := fun a ha =>
        List.mem_toFinset.mpr (hsub (List.mem_toFinset.mp ha))
      have h2 : bound.toFinset.card ≤ s.toFinset.card := by
        have hs1 : s.toFinset.card = s.length := List.toFinset_card_of_nodup hnd
        have hb1 : bound.toFinset.card ≤ bound.length := List.toFinset_card_le bound
        omega
      have heq : s.toFinset = bound.toFinset :=
        Finset.eq_of_subset_of_card_le h1 h2
      exact List.mem_toFinset.mp (heq ▸ List.mem_toFinset.mpr hx)
    exact hcover u (hbound s u hu)
  | succ k ih =>
    intro s hnd hsub hlen u hu
    rw [saturate] at hu ⊢
    by_cases hnews : (((next s).filter (fun w => !(s.contains w))).dedup).isEmpty = true
    · rw [if_pos hnews] at hu ⊢
      by_cases hus : u ∈ s
      · exact hus
      · exfalso
        have humem : u ∈ ((next s).filter (fun w => !(s.contains w))).dedup := by
          refine List.mem_dedup.mpr (List.mem_filter.mpr ⟨hu, ?_⟩)
          simp only [Bool.not_eq_true']
          cases hc : s.contains u with
          | false => rfl
          | true => exact absurd (List.elem_iff.mp hc) hus
        rw [List.isEmpty_iff.mp hnews] at humem
        exact List.not_mem_nil _ humem
    · rw [if_neg hnews] at hu ⊢
      have hnewsnodup : (((next s).filter (fun w => !(s.contains w))).dedup).Nodup :=
        List.nodup_dedup _
      have hdisj : ∀ a ∈ s, a ∉ ((next s).filter (fun w => !(s.contains w))).dedup := by
        intro a ha hc
        have hfalse := List.mem_filter.mp (List.mem_dedup.mp hc) |>.2
        simp only [Bool.not_eq_true'] at hfalse
        have htrue : s.contains a = true := List.elem_iff.mpr ha
        rw [hfalse] at htrue
        exact Bool.noConfusion htrue
      have hnd' : (s ++ ((next s).filter (fun w => !(s.contains w))).dedup).Nodup := by
        rw [List.nodup_append]
        exact ⟨hnd, hnewsnodup, hdisj⟩
      have hsub' : (s ++ ((next s).filter (fun w => !(s.contains w))).dedup) ⊆ bound := by
        intro a ha
        rcases List.mem_append.mp ha with h1 | h2
        · exact hsub h1
        · exact hbound s a (List.mem_of_mem_filter (List.mem_dedup.mp h2))
      have hlen' : bound.length
          ≤ k + (s ++ ((next s).filter (fun w => !(s.contains w))).dedup).length := by
        rw [List.length_append]
        have hpos : 0 < (((next s).filter (fun w => !(s.contains w))).dedup).length := by
          cases hl : (((next s).filter (fun w => !(s.contains w))).dedup) with
          | nil => rw [hl] at hnews; exact absurd rfl hnews
          | cons a l => exact Nat.succ_pos _
        omega
      exact ih hnd' hsub' hlen' u hu

theorem predsOf_mem {edges : List (String × String)} {s : List String}
    {u : String} :
    u ∈ predsOf edges s ↔ ∃ v, (u, v) ∈ edges ∧ v ∈ s := by
  constructor
  · intro h
    obtain ⟨e, he, heu⟩ := List.mem_map.mp h
    obtain ⟨hee, hcont⟩ := List.mem_filter.mp he
    exact ⟨e.2, by rw [← heu, Prod.mk.eta]; exact hee, List.elem_iff.mp hcont⟩
  · rintro ⟨v, hedge, hv⟩
    exact List.mem_map.mpr ⟨(u, v),
      List.mem_filter.mpr ⟨hedge, List.elem_iff.mpr hv⟩, rfl⟩

theorem mem_ancestorsWith {g : Graph} {t x : String}
    (hwf : ∀ e ∈ g.edges, e.1 ∈ g.nodes ∧ e.2 ∈ g.nodes) (ht : t ∈ g.nodes) :
    x ∈ ancestorsWith g t ↔ (x = t ∨ Relation.TransGen (EdgeRel g) x t) := by
  constructor
  · intro hx
    refine saturate_sound (fun y => y = t ∨ Relation.TransGen (EdgeRel g) y t)
      ?_ g.nodes.length [t] ?_ x hx
    · intro s hs u hu
      obtain ⟨v, hedge, hv⟩ := predsOf_mem.mp hu
      rcases hs v hv with rfl | htg
      · exact Or.inr (Relation.TransGen.single hedge)
      · exact Or.inr (Relation.TransGen.head hedge htg)
    · intro y hy
      exact Or.inl (List.mem_singleton.mp hy)
  · intro hx
    have hclosed : ∀ u ∈ predsOf g.edges (ancestorsWith g t),
        u ∈ ancestorsWith g t := by
      refine saturate_closed g.nodes ?_ (List.nodup_singleton t) ?_ ?_
      · intro s u hu
        obtain ⟨v, hedge, _⟩ := predsOf_mem.mp hu
        exact (hwf _ hedge).1
      · intro a ha
        rw [List.mem_singleton.mp ha]
        exact ht
      · simp
    have htin : t ∈ ancestorsWith g t :=
      saturate_subset _ _ _ (List.mem_singleton.mpr rfl)
    rcases hx with rfl | htrans
    · exact htin
    · induction htrans using Relation.TransGen.head_induction_on with
      | base h => exact hclosed _ (predsOf_mem.mpr ⟨t, h, htin⟩)
      | ih h _ ihp => exact hclosed _ (predsOf_mem.mpr ⟨_, h, ihp⟩)

/-- C4: For every single target node `t` present in the graph,
`get_operations_to_nodes` returns exactly the set `{t} ∪ ancestors(t)` —
nothing else — and the returned sequence is a subsequence, in relative
order, of the full total order. -/
theorem c4_ancestor_closure (ops : List Operation) (g : Graph) (t : String)
    (hg : Dag.graphBuild ops = .ok g) (ht : t ∈ g.nodes) :
    (∀ x, x ∈ Dag.get_operations_to_nodes ops g [t] ↔
      (x = t ∨ Relation.TransGen (EdgeRel g) x t)) ∧
    (Dag.get_operations_to_nodes ops g [t]).Sublist
      (Dag.get_all_operations ops g) := by
  have hwf := graphBuild_wf hg
  set S : List String := [t] ++ [t].flatMap (ancestorsWith g) with hS
  have hSmem : ∀ x, x ∈ S ↔ (x = t ∨ Relation.TransGen (EdgeRel g) x t) := by
    intro x
    rw [hS]
    constructor
    · intro hx
      rcases List.mem_append.mp hx with h1 | h2
      · exact Or.inl (List.mem_singleton.mp h1)
      · obtain ⟨a, ha, hxa⟩ := List.mem_flatMap.mp h2
        rw [List.mem_singleton.mp ha] at hxa
        exact (mem_ancestorsWith hwf ht).mp hxa
    · intro hx
      rcases hx with rfl | htg
      · exact List.mem_append_left _ (List.mem_singleton.mpr rfl)
      · exact List.mem_append_right _ (List.mem_flatMap.mpr
          ⟨t, List.mem_singleton.mpr rfl,
            (mem_ancestorsWith hwf ht).mpr (Or.inr htg)⟩)
  have hSnodes : ∀ x ∈ S, x ∈ g.nodes := by
    intro x hx
    rcases (hSmem x).mp hx with rfl | htg
    · exact ht
    · obtain ⟨c, hc⟩ := transGen_head_exists htg
      exact (hwf _ hc).1
  have hclosed : ∀ u v, (u, v) ∈ g.edges →
      S.contains v = true → S.contains u = true := by
    intro u v hedge hv
    have hvS := List.elem_iff.mp hv
    apply List.elem_iff.mpr
    rcases (hSmem v).mp hvS with rfl | htg
    · exact (hSmem u).mpr (Or.inr (Relation.TransGen.single hedge))
    · exact (hSmem u).mpr (Or.inr (Relation.TransGen.head hedge htg))
  have hne : ¬ (S.isEmpty = true) := by
    rw [hS]
    intro hc
    exact Bool.noConfusion hc
  have hR : Dag.get_operations_to_nodes ops g [t]
      = kahnRun (custom_key ops) (g.subgraph S) := by
    unfold Dag.get_operations_to_nodes Dag.topological_sort
    rw [← hS, if_neg hne]
  have hpos : ∀ e ∈ (g.edges.filter fun e => S.contains e.1 && S.contains e.2),
      List.indexOf e.1 (Dag.get_all_operations ops g)
        < List.indexOf e.2 (Dag.get_all_operations ops g) := by
    intro e he
    have hee := (List.mem_filter.mp he).1
    exact graph_edge_index_lt hg (Prod.mk.eta ▸ hee)
  have hcomp : (kahnRun (custom_key ops) (g.subgraph S)).length
      = (g.nodes.filter (fun n => S.contains n)).length :=
    kahnAux_complete_of_pos
      (fun x => List.indexOf x (Dag.get_all_operations ops g)) hpos rfl
  have hperm : (kahnRun (custom_key ops) (g.subgraph S)).Perm
      (g.nodes.filter (fun n => S.contains n)) :=
    kahnAux_perm rfl hcomp
  constructor
  · intro x
    rw [hR, hperm.mem_iff, List.mem_filter]
    constructor
    · rintro ⟨_, hxS⟩
      exact (hSmem x).mp (List.elem_iff.mp hxS)
    · intro hx
      have hxS := (hSmem x).mpr hx
      exact ⟨hSnodes x hxS, List.elem_iff.mpr hxS⟩
  · have hcoup := @kahn_filter_coupling (custom_key ops) g.edges
      (fun n => S.contains n) (custom_key_inj ops) hclosed
      g.nodes.length g.nodes rfl
    have hga := @get_all_operations_eq_kahnRun ops g hwf
    have heq : kahnRun (custom_key ops) (g.subgraph S)
        = (kahnRun (custom_key ops) g).filter (fun n => S.contains n) := hcoup
    rw [hR, hga, heq]
    exact List.filter_sublist _

theorem c4_ancestor_closure_witness :
    Dag.graphBuild c1ops = .ok c1graph ∧ "a_config" ∈ c1graph.nodes ∧
      ((∀ x, x ∈ Dag.get_operations_to_nodes c1ops c1graph ["a_config"] ↔
        (x = "a_config" ∨ Relation.TransGen (EdgeRel c1graph) x "a_config")) ∧
      (Dag.get_operations_to_nodes c1ops c1graph ["a_config"]).Sublist
        (Dag.get_all_operations c1ops c1graph)) :=
  ⟨rfl, by decide,
    c4_ancestor_closure c1ops c1graph "a_config" rfl (by decide)⟩
